import Mathlib

/-!
Verification of the dictionary utilities in `prefect/utilities/collections.py`:
`merge_dicts`, the `DotDict` attribute-accessible mapping, `to_dotdict`,
`CompoundKey`, `dict_to_flatdict` and `flatdict_to_dict`.

The Python data model is embedded shallowly:

* `PyKey` models the hashable keys that occur in this module: strings, ints,
  plain tuples of keys and `CompoundKey` (a tuple subclass used as a path key).
* `PyVal` models the values: plain `dict`s (as insertion-ordered association
  lists with unique keys, matching Python dict semantics), `DotDict` instances
  (their `__dict__` storage), `list`/`tuple`/`set` containers and opaque
  non-container leaves (`atom`).
* Raised exceptions are modelled by `Except PyErr`.

For the mutation claim about `merge_dicts`, a second, store-passing model
(`Heap`, `mergeH`) makes object identity and in-place updates explicit.
-/

namespace PrefectCollections

/-- Python keys relevant to this module.  `compound ks` models a
`CompoundKey` (a tuple subclass); `tup ks` models a plain tuple key. -/
inductive PyKey where
  | str : String → PyKey
  | int : Int → PyKey
  | tup : List PyKey → PyKey
  | compound : List PyKey → PyKey
  deriving Repr

/-- Boolean equality on `PyKey` (structural; a `CompoundKey` is distinguishable
from a plain tuple by its type tag). -/
def PyKey.beq : PyKey → PyKey → Bool
  | .str a, .str b => a == b
  | .int a, .int b => a == b
  | .tup as, .tup bs => go as bs
  | .compound as, .compound bs => go as bs
  | _, _ => false
where go : List PyKey → List PyKey → Bool
  | [], [] => true
  | a :: as, b :: bs => PyKey.beq a b && go as bs
  | _, _ => false

mutual

theorem PyKey.beqk_true_iff : (a b : PyKey) → (PyKey.beq a b = true ↔ a = b)
  | .str a, b => by cases b <;> simp [PyKey.beq]
  | .int a, b => by cases b <;> simp [PyKey.beq]
  | .tup as, b => by cases b <;> simp [PyKey.beq, PyKey.beq_go_iff as _]
  | .compound as, b => by cases b <;> simp [PyKey.beq, PyKey.beq_go_iff as _]

theorem PyKey.beq_go_iff : (as bs : List PyKey) → (PyKey.beq.go as bs = true ↔ as = bs)
  | [], [] => by simp [PyKey.beq.go]
  | [], _ :: _ => by simp [PyKey.beq.go]
  | _ :: _, [] => by simp [PyKey.beq.go]
  | a :: as, b :: bs => by
      simp [PyKey.beq.go, PyKey.beqk_true_iff a b, PyKey.beq_go_iff as bs]

end

instance : DecidableEq PyKey := fun a b => decidable_of_iff _ (PyKey.beqk_true_iff a b)

/-- Python values relevant to this module.  A `dict` / `dotdict` is its
insertion-ordered list of key-value entries (`DotDict` stores its entries in
the instance `__dict__`).  `atom` stands for any other (opaque) leaf value. -/
inductive PyVal where
  | dict : List (PyKey × PyVal) → PyVal
  | dotdict : List (PyKey × PyVal) → PyVal
  | list : List PyVal → PyVal
  | tuple : List PyVal → PyVal
  | setv : List PyVal → PyVal
  | atom : Int → PyVal
  deriving Repr

/-- Boolean (structural) equality on `PyVal`. -/
def PyVal.beq : PyVal → PyVal → Bool
  | .dict a, .dict b => goD a b
  | .dotdict a, .dotdict b => goD a b
  | .list a, .list b => goL a b
  | .tuple a, .tuple b => goL a b
  | .setv a, .setv b => goL a b
  | .atom a, .atom b => a == b
  | _, _ => false
where
  goD : List (PyKey × PyVal) → List (PyKey × PyVal) → Bool
    | [], [] => true
    | (k, v) :: as, (k', v') :: bs => decide (k = k') && PyVal.beq v v' && goD as bs
    | _, _ => false
  goL : List PyVal → List PyVal → Bool
    | [], [] => true
    | a :: as, b :: bs => PyVal.beq a b && goL as bs
    | _, _ => false

mutual

theorem PyVal.beqv_true_iff : (a b : PyVal) → (PyVal.beq a b = true ↔ a = b)
  | .dict a, b => by cases b <;> simp [PyVal.beq, PyVal.beq_goD_iff a _]
  | .dotdict a, b => by cases b <;> simp [PyVal.beq, PyVal.beq_goD_iff a _]
  | .list a, b => by cases b <;> simp [PyVal.beq, PyVal.beq_goL_iff a _]
  | .tuple a, b => by cases b <;> simp [PyVal.beq, PyVal.beq_goL_iff a _]
  | .setv a, b => by cases b <;> simp [PyVal.beq, PyVal.beq_goL_iff a _]
  | .atom a, b => by cases b <;> simp [PyVal.beq]

theorem PyVal.beq_goD_iff :
    (as bs : List (PyKey × PyVal)) → (PyVal.beq.goD as bs = true ↔ as = bs)
  | [], [] => by simp [PyVal.beq.goD]
  | [], _ :: _ => by simp [PyVal.beq.goD]
  | _ :: _, [] => by simp [PyVal.beq.goD]
  | (k, v) :: as, (k', v') :: bs => by
      simp [PyVal.beq.goD, PyVal.beqv_true_iff v v', PyVal.beq_goD_iff as bs,
        Prod.ext_iff, and_assoc]

theorem PyVal.beq_goL_iff : (as bs : List PyVal) → (PyVal.beq.goL as bs = true ↔ as = bs)
  | [], [] => by simp [PyVal.beq.goL]
  | [], _ :: _ => by simp [PyVal.beq.goL]
  | _ :: _, [] => by simp [PyVal.beq.goL]
  | a :: as, b :: bs => by
      simp [PyVal.beq.goL, PyVal.beqv_true_iff a b, PyVal.beq_goL_iff as bs]

end

instance : DecidableEq PyVal := fun a b => decidable_of_iff _ (PyVal.beqv_true_iff a b)

/-- The exceptions raised by the code under verification. -/
inductive PyErr where
  | valueError : String → PyErr
  | typeError : String → PyErr
  | keyError : PyErr
  deriving DecidableEq, Repr

abbrev Dict := List (PyKey × PyVal)

/-- `d[k]` lookup in an insertion-ordered dict (first matching entry). -/
def alookup : Dict → PyKey → Option PyVal
  | [], _ => none
  | (k', v) :: rest, k => if k = k' then some v else alookup rest k

/-- `d[k] = v` on a Python dict: replace the value in place if the key is
present, otherwise append the new entry at the end (insertion order). -/
def aset : Dict → PyKey → PyVal → Dict
  | [], k, v => [(k, v)]
  | (k', v') :: rest, k, v =>
    if k = k' then (k', v) :: rest else (k', v') :: aset rest k v

/-- `del d[k]`: remove the first entry with key `k`. -/
def adel : Dict → PyKey → Dict
  | [], _ => []
  | (k', v') :: rest, k => if k = k' then rest else (k', v') :: adel rest k

/-- The key list of a dict, in insertion order. -/
def dkeys (d : Dict) : List PyKey := d.map Prod.fst

@[simp] theorem dkeys_nil : dkeys [] = [] := rfl

@[simp] theorem dkeys_cons (k : PyKey) (v : PyVal) (d : Dict) :
    dkeys ((k, v) :: d) = k :: dkeys d := rfl

theorem dkeys_append (d₁ d₂ : Dict) :
    dkeys (d₁ ++ d₂) = dkeys d₁ ++ dkeys d₂ := by
  simp [dkeys]

@[simp] theorem alookup_nil (k : PyKey) : alookup [] k = none := rfl

theorem alookup_cons (k k' : PyKey) (v : PyVal) (d : Dict) :
    alookup ((k', v) :: d) k = if k = k' then some v else alookup d k := rfl

theorem alookup_cons_self (k : PyKey) (v : PyVal) (d : Dict) :
    alookup ((k, v) :: d) k = some v := by
  simp [alookup]

theorem alookup_cons_ne {q k : PyKey} (v : PyVal) (d : Dict) (h : q ≠ k) :
    alookup ((k, v) :: d) q = alookup d q := by
  simp [alookup, h]

theorem alookup_eq_none_of_not_mem {d : Dict} {k : PyKey}
    (h : k ∉ dkeys d) : alookup d k = none := by
  induction d with
  | nil => rfl
  | cons kv rest ih =>
    obtain ⟨k', v⟩ := kv
    simp only [dkeys_cons, List.mem_cons, not_or] at h
    simp [alookup, h.1, ih h.2]

theorem mem_dkeys_of_alookup {d : Dict} {k : PyKey} {v : PyVal}
    (h : alookup d k = some v) : k ∈ dkeys d := by
  induction d with
  | nil => simp [alookup] at h
  | cons kv rest ih =>
    obtain ⟨k', v'⟩ := kv
    by_cases hk : k = k'
    · simp [hk]
    · simp only [alookup, hk, if_false] at h
      simp [ih h]

theorem alookup_aset_self (d : Dict) (k : PyKey) (v : PyVal) :
    alookup (aset d k v) k = some v := by
  induction d with
  | nil => simp [aset, alookup]
  | cons kv rest ih =>
    obtain ⟨k', v'⟩ := kv
    by_cases hk : k = k'
    · simp [aset, hk, alookup]
    · simp [aset, hk, alookup, ih]

theorem alookup_aset_ne (d : Dict) (k k₀ : PyKey) (v : PyVal) (h : k ≠ k₀) :
    alookup (aset d k₀ v) k = alookup d k := by
  induction d with
  | nil => simp [aset, alookup, h]
  | cons kv rest ih =>
    obtain ⟨k', v'⟩ := kv
    by_cases hk : k₀ = k'
    · subst hk
      simp [aset, alookup, h]
    · by_cases hkk : k = k'
      · simp [aset, hk, alookup, hkk]
      · simp [aset, hk, alookup, hkk, ih]

theorem aset_eq_append {d : Dict} {k : PyKey} (v : PyVal)
    (h : k ∉ dkeys d) : aset d k v = d ++ [(k, v)] := by
  induction d with
  | nil => rfl
  | cons kv rest ih =>
    obtain ⟨k', v'⟩ := kv
    simp only [dkeys_cons, List.mem_cons, not_or] at h
    simp [aset, h.1, ih h.2]

theorem dkeys_aset (d : Dict) (k : PyKey) (v : PyVal) :
    dkeys (aset d k v) = if k ∈ dkeys d then dkeys d else dkeys d ++ [k] := by
  induction d with
  | nil => simp [aset]
  | cons kv rest ih =>
    obtain ⟨k', v'⟩ := kv
    by_cases hk : k = k'
    · simp [aset, hk]
    · simp only [aset, hk, if_false, dkeys_cons, List.mem_cons, ih]
      by_cases hm : k ∈ dkeys rest <;> simp [hm, hk]

theorem mem_dkeys_aset (d : Dict) (k k₀ : PyKey) (v : PyVal) :
    k ∈ dkeys (aset d k₀ v) ↔ k ∈ dkeys d ∨ k = k₀ := by
  rw [dkeys_aset]
  by_cases hm : k₀ ∈ dkeys d
  · simp only [hm, if_true]
    constructor
    · exact fun h => Or.inl h
    · rintro (h | rfl)
      · exact h
      · exact hm
  · simp [hm, or_comm]

/-! ## DotDict

`DotDict(MutableMapping)` stores its entries directly in the instance
`__dict__`; `__setitem__` first evaluates `hasattr(MutableMapping, key)`,
which raises `TypeError` for a non-string key and, for a string key, tests
membership in the attribute set of the `MutableMapping` abstract base class.
A reserved key raises `ValueError("no sir")` (this is the error the spec
calls `ReservedKeyError`).  `__setattr__` delegates to `__setitem__`. -/

/-- The strings `s` with `hasattr(MutableMapping, s)` true: `hasattr` on a
class resolves attributes through the class's method resolution order and
through its metaclass (`ABCMeta` and `type`), so besides the
mapping-protocol names this set contains the ABC/metaclass names such as
`mro`, `register`, `__name__`, `__bases__`, `__call__` and the name-mangled
`_MutableMapping__marker`.  Enumerated from CPython 3.11 (the union of the
`__dict__`s along both MROs, each member checked with `hasattr`).  `"copy"`
is not in it: neither `MutableMapping` nor its metaclass defines `copy`. -/
def mmAttrs : List String :=
  ["_MutableMapping__marker", "__abstractmethods__", "__annotations__",
   "__base__", "__bases__", "__basicsize__", "__call__", "__class__",
   "__class_getitem__", "__contains__", "__delattr__", "__delitem__",
   "__dict__", "__dictoffset__", "__dir__", "__doc__", "__eq__",
   "__flags__", "__format__", "__ge__", "__getattribute__", "__getitem__",
   "__getstate__", "__gt__", "__hash__", "__init__", "__init_subclass__",
   "__instancecheck__", "__itemsize__", "__iter__", "__le__", "__len__",
   "__lt__", "__module__", "__mro__", "__name__", "__ne__", "__new__",
   "__or__", "__prepare__", "__qualname__", "__reduce__", "__reduce_ex__",
   "__repr__", "__reversed__", "__ror__", "__setattr__", "__setitem__",
   "__sizeof__", "__slots__", "__str__", "__subclasscheck__",
   "__subclasses__", "__subclasshook__", "__text_signature__",
   "__weakrefoffset__", "_abc_caches_clear", "_abc_impl",
   "_abc_registry_clear", "_dump_registry", "clear", "get", "items",
   "keys", "mro", "pop", "popitem", "register", "setdefault", "update",
   "values"]

/-- The check performed at the top of `DotDict.__setitem__`:
`hasattr(MutableMapping, key)` raises `TypeError` when `key` is not a string,
and the reserved-name collision raises `ValueError("no sir")`. -/
def dd_check (k : PyKey) : Except PyErr Unit :=
  match k with
  | .str s =>
      if s ∈ mmAttrs then .error (.valueError "no sir") else .ok ()
  | _ => .error (.typeError "attribute name must be string")

/-- `DotDict.__setitem__`: validate the key, then `self.__dict__[key] = value`. -/
def dd_setitem (st : Dict) (k : PyKey) (v : PyVal) : Except PyErr Dict :=
  match dd_check k with
  | .ok _ => .ok (aset st k v)
  | .error e => .error e

/-- `DotDict.__setattr__(attr, value)` is `self[attr] = value`
(attribute names are strings). -/
def dd_setattr (st : Dict) (name : String) (v : PyVal) : Except PyErr Dict :=
  dd_setitem st (.str name) v

/-- `MutableMapping.update(other)`: `self[k] = other[k]` for each entry of
`other`, in iteration order; the first error aborts. -/
def dd_update (st : Dict) : Dict → Except PyErr Dict
  | [] => .ok st
  | (k, v) :: rest =>
      match dd_setitem st k v with
      | .ok st' => dd_update st' rest
      | .error e => .error e

/-- `DotDict.__init__(init_dict, **kwargs)`: `update(init_dict)` (skipped when
falsy, which is the same as updating with an empty mapping), then
`update(kwargs)`. -/
def dd_init (init_dict kwargs : Dict) : Except PyErr Dict :=
  match dd_update [] init_dict with
  | .ok s => dd_update s kwargs
  | .error e => .error e

/-- `DotDict.__getitem__`: `self.__dict__[key]` (`KeyError` when absent). -/
def dd_getitem (st : Dict) (k : PyKey) : Except PyErr PyVal :=
  match alookup st k with
  | some v => .ok v
  | none => .error .keyError

/-- `DotDict.__delitem__`: `del self.__dict__[key]`. -/
def dd_delitem (st : Dict) (k : PyKey) : Except PyErr Dict :=
  if k ∈ dkeys st then .ok (adel st k) else .error .keyError

/-- `DotDict.copy()`: `type(self)(self.__dict__.copy())`, i.e. re-run
`__init__` on a shallow copy of the current entries. -/
def dd_copy (st : Dict) : Except PyErr Dict := dd_init st []

/-- The attribute names found on the `DotDict` class: the inherited
`MutableMapping` names plus `copy` (the methods `DotDict` defines itself all
override names already present on `MutableMapping`). -/
def ddClassAttrs : List String := "copy" :: mmAttrs

/-- Result of reading an attribute from a `DotDict` instance. -/
inductive AttrRead where
  | val : PyVal → AttrRead
  | classAttr : String → AttrRead
  | error : AttrRead
  deriving DecidableEq, Repr

/-- Attribute read on a `DotDict`.  `DotDict` defines no `__getattr__`, so
Python falls back to the default lookup: the instance `__dict__` wins for the
stored keys (class methods are plain functions, i.e. non-data descriptors),
otherwise a class attribute is found, otherwise `AttributeError`. -/
def dd_getattr (st : Dict) (name : String) : AttrRead :=
  match alookup st (.str name) with
  | some v => .val v
  | none => if name ∈ ddClassAttrs then .classAttr name else .error

/-- `k` is a string key. -/
def PyKey.isStr : PyKey → Bool
  | .str _ => true
  | _ => false

/-- All keys of the storage are strings. -/
def onlyStrKeys (st : Dict) : Bool := st.all fun kv => kv.1.isStr

/-- The states a `DotDict` instance can actually be in: every key was admitted
by `__setitem__` (a non-reserved string) and keys are distinct. -/
def validState (st : Dict) : Bool :=
  (st.all fun kv =>
    match kv.1 with
    | .str s => decide (s ∉ mmAttrs)
    | _ => false) && decide (dkeys st).Nodup

/-- The `DotDict` states reachable through the public operations: construction,
item/attribute writes, deletion and `copy()`. -/
inductive Reach : Dict → Prop where
  | init (l kw s : Dict) : dd_init l kw = .ok s → Reach s
  | set (s : Dict) (k : PyKey) (v : PyVal) (s' : Dict) :
      Reach s → dd_setitem s k v = .ok s' → Reach s'
  | del (s : Dict) (k : PyKey) (s' : Dict) :
      Reach s → dd_delitem s k = .ok s' → Reach s'
  | copy (s s' : Dict) : Reach s → dd_copy s = .ok s' → Reach s'

/-! ## merge_dicts

`merge_dicts(d1, d2)` copies `d1` (`DotDict.copy` re-validates, `dict.copy`
does not), then for each entry `(k, v)` of `d2` either recursively merges
(when both `new_dict.get(k)` and `v` are `MutableMapping`s) or overwrites.
Writing into a `DotDict` copy goes through the validating `__setitem__`. -/

/-- `isinstance(v, MutableMapping)` for the modelled values: plain dicts and
`DotDict` instances. -/
def isMM : PyVal → Bool
  | .dict _ => true
  | .dotdict _ => true
  | _ => false

mutual

/-- `merge_dicts` of the source.  Only mappings are accepted (on any other
argument the attribute accesses `d1.copy()` / `d2.items()` fail). -/
def merge_dicts : PyVal → PyVal → Except PyErr PyVal
  | .dict e1, .dict e2 =>
      match mergeGo false e1 e2 with
      | .ok e => .ok (.dict e)
      | .error e => .error e
  | .dict e1, .dotdict e2 =>
      match mergeGo false e1 e2 with
      | .ok e => .ok (.dict e)
      | .error e => .error e
  | .dotdict e1, .dict e2 =>
      match dd_copy e1 with
      | .ok e1' =>
          match mergeGo true e1' e2 with
          | .ok e => .ok (.dotdict e)
          | .error e => .error e
      | .error e => .error e
  | .dotdict e1, .dotdict e2 =>
      match dd_copy e1 with
      | .ok e1' =>
          match mergeGo true e1' e2 with
          | .ok e => .ok (.dotdict e)
          | .error e => .error e
      | .error e => .error e
  | _, _ => .error (.typeError "merge_dicts expects mappings")

/-- The loop of `merge_dicts` over the entries of `d2`, acting on the copy
`nd`; `isDot` records whether `nd` is a `DotDict` (whose writes validate). -/
def mergeGo (isDot : Bool) (nd : Dict) : List (PyKey × PyVal) → Except PyErr Dict
  | [] => .ok nd
  | (k, v) :: rest =>
      let step : Except PyErr PyVal :=
        match alookup nd k with
        | some m1 => if isMM m1 && isMM v then merge_dicts m1 v else .ok v
        | none => .ok v
      match step with
      | .ok newv =>
          match (if isDot then dd_setitem nd k newv else .ok (aset nd k newv)) with
          | .ok nd' => mergeGo isDot nd' rest
          | .error e => .error e
      | .error e => .error e

end

/-! ## to_dotdict -/

mutual

/-- `to_dotdict`: rebuild `list`/`tuple`/`set` containers with converted
elements, convert a `dict` into `DotDict({k: to_dotdict(v) ...})` (the
comprehension converts every value first, then `DotDict.__init__` validates
the keys one by one), and return any other value unchanged (in particular an
existing `DotDict` is not a `dict` and is returned as is). -/
def to_dotdict : PyVal → Except PyErr PyVal
  | .list xs =>
      match tdList xs with
      | .ok ys => .ok (.list ys)
      | .error e => .error e
  | .tuple xs =>
      match tdList xs with
      | .ok ys => .ok (.tuple ys)
      | .error e => .error e
  | .setv xs =>
      match tdList xs with
      | .ok ys => .ok (.setv ys)
      | .error e => .error e
  | .dict kvs =>
      match tdEntries kvs with
      | .ok kvs' =>
          match dd_init kvs' [] with
          | .ok st => .ok (.dotdict st)
          | .error e => .error e
      | .error e => .error e
  | v => .ok v

/-- Elementwise conversion of a container. -/
def tdList : List PyVal → Except PyErr (List PyVal)
  | [] => .ok []
  | x :: xs =>
      match to_dotdict x with
      | .ok y =>
          match tdList xs with
          | .ok ys => .ok (y :: ys)
          | .error e => .error e
      | .error e => .error e

/-- Valuewise conversion of a dict comprehension `{k: to_dotdict(v) ...}`. -/
def tdEntries : List (PyKey × PyVal) → Except PyErr (List (PyKey × PyVal))
  | [] => .ok []
  | (k, v) :: rest =>
      match to_dotdict v with
      | .ok v' =>
          match tdEntries rest with
          | .ok rest' => .ok ((k, v') :: rest')
          | .error e => .error e
      | .error e => .error e

end

/-! ## CompoundKey, dict_to_flatdict, flatdict_to_dict -/

mutual

/-- `dict_to_flatdict(dct, parent)`: depth-first walk of the nested dict;
a `dict` value is descended into, any other value becomes an entry whose key
is `CompoundKey(parent + (k,))`.  The source collects the items in exactly
this order and returns `dict(items)`; keys of distinct leaves are distinct,
so the item list is the resulting dict. -/
def dict_to_flatdict (parent : List PyKey) : Dict → List (PyKey × PyVal)
  | [] => []
  | (k, v) :: rest =>
      flatVal (parent ++ [k]) v ++ dict_to_flatdict parent rest

/-- The body of the loop of `dict_to_flatdict` for one value: descend into a
`dict`, emit a leaf entry otherwise. -/
def flatVal (pk : List PyKey) : PyVal → List (PyKey × PyVal)
  | .dict dv => dict_to_flatdict pk dv
  | v => [(.compound pk, v)]

end

/-- Split a nonempty path (given as head and tail) into `k[:-1]` and `k[-1]`. -/
def splitLast (k : PyKey) : List PyKey → List PyKey × PyKey
  | [] => ([], k)
  | k' :: rest =>
      let (ps, l) := splitLast k' rest
      (k :: ps, l)

/-- The `setdefault` walk of `flatdict_to_dict` for one `CompoundKey` entry:
walk the intermediate segments `ps`, creating a fresh `{}` at each missing
level; descending into a non-dict value fails (in Python: `setdefault` is
missing on it, or the final item assignment is unsupported — an exception
either way), and finally set the last segment to `v`. -/
def setPath (d : Dict) (ps : List PyKey) (last : PyKey) (v : PyVal) : Option Dict :=
  match ps with
  | [] => some (aset d last v)
  | k :: rest =>
      match alookup d k with
      | some (.dict d1) =>
          match setPath d1 rest last v with
          | some d1' => some (aset d k (.dict d1'))
          | none => none
      | some _ => none
      | none =>
          match setPath [] rest last v with
          | some d1' => some (aset d k (.dict d1'))
          | none => none

/-- The loop of `flatdict_to_dict` over the flat entries: a `CompoundKey`
entry is replayed through the `setdefault` walk (an empty `CompoundKey`
fails on `k[-1]`, an `IndexError`), any other key is set directly at top
level. -/
def f2dGo (acc : Dict) : List (PyKey × PyVal) → Option Dict
  | [] => some acc
  | (k, v) :: rest =>
      match k with
      | .compound [] => none
      | .compound (p :: ps) =>
          let (init, last) := splitLast p ps
          match setPath acc init last v with
          | some acc' => f2dGo acc' rest
          | none => none
      | _ => f2dGo (aset acc k v) rest

/-- `flatdict_to_dict(dct)` with the default `dct_class` (`dict`).
`none` models the call raising an exception. -/
def flatdict_to_dict (dct : List (PyKey × PyVal)) : Option Dict := f2dGo [] dct

/-! ## Structural predicates on nested dicts -/

mutual

/-- Python dicts have pairwise-distinct keys; `wfDict` states this for a
modelled dict and all dicts nested in its values. -/
def wfDict : Dict → Bool
  | [] => true
  | (k, v) :: rest => !(decide (k ∈ dkeys rest)) && wfVal v && wfDict rest

def wfVal : PyVal → Bool
  | .dict kvs => wfDict kvs
  | _ => true

end

mutual

/-- No value nested anywhere in the dict is an empty dict. -/
def neDict : Dict → Bool
  | [] => true
  | (_, v) :: rest => neVal v && neDict rest

def neVal : PyVal → Bool
  | .dict [] => false
  | .dict kvs => neDict kvs
  | _ => true

end

/-- The key is not a plain (non-`CompoundKey`) tuple. -/
def ntKey : PyKey → Bool
  | .tup _ => false
  | _ => true

mutual

/-- No key nested anywhere in the dict is a plain tuple. -/
def ntDict : Dict → Bool
  | [] => true
  | (k, v) :: rest => ntKey k && ntVal v && ntDict rest

def ntVal : PyVal → Bool
  | .dict kvs => ntDict kvs
  | _ => true

end

mutual

/-- A tree of plain dicts: no value reachable through dict nesting is a
`DotDict` (so `merge_dicts` on it only ever touches plain dicts). -/
def plainD : Dict → Bool
  | [] => true
  | (_, v) :: rest => plainV v && plainD rest

def plainV : PyVal → Bool
  | .dict e => plainD e
  | .dotdict _ => false
  | _ => true

end

/-- `keyPre ps qs`: `ps` is an initial segment of `qs`. -/
def keyPre : List PyKey → List PyKey → Bool
  | [], _ => true
  | _ :: _, [] => false
  | p :: ps, q :: qs => decide (p = q) && keyPre ps qs

/-- The `setdefault` walk along `ps` never meets a non-dict value
(absent levels are fine: they would be created). -/
def walkOk : Dict → List PyKey → Bool
  | _, [] => true
  | d, k :: rest =>
      match alookup d k with
      | some (.dict d1) => walkOk d1 rest
      | some _ => false
      | none => true

/-- The keys of the dict sitting at path `ps` (empty when the path is absent
or blocked). -/
def keysAt : Dict → List PyKey → List PyKey
  | d, [] => dkeys d
  | d, k :: rest =>
      match alookup d k with
      | some (.dict d1) => keysAt d1 rest
      | _ => []

/-- Append the entries `d` to the dict found (or created) at path `ps` of
`d0`.  This is the net effect on `d0` of replaying, through the `setdefault`
walk, all flat entries of a subtree rooted at `ps`. -/
def graftGo : Dict → List PyKey → Dict → Dict
  | d0, [], d => d0 ++ d
  | d0, k :: ps, d =>
      match alookup d0 k with
      | some (.dict d1) => aset d0 k (.dict (graftGo d1 ps d))
      | some _ => d0
      | none => aset d0 k (.dict (graftGo [] ps d))

mutual

/-- `leafAt m p v`: following the key chain `p` from the root of `m` reaches
the non-dict leaf value `v`. -/
def leafAt : Dict → List PyKey → PyVal → Bool
  | _, [], _ => false
  | d, k :: ks, v =>
      match alookup d k with
      | some w => leafAtV w ks v
      | none => false

/-- `leafAtV w p v`: from the value `w`, the remaining chain `p` reaches the
non-dict leaf `v` (for the empty chain: `w` is itself that leaf). -/
def leafAtV : PyVal → List PyKey → PyVal → Bool
  | .dict d1, ks, v => leafAt d1 ks v
  | w, [], v => decide (w = v)
  | _, _ :: _, _ => false

end

/-! ## Spec-side definitions

These two definitions are transcribed from the words of the specification
(not from the source); the theorems compare the source model against them. -/

mutual

/-- Modelled from the spec (conversion helper contract): mappings become
attribute-accessible instances with recursively converted values under the
same keys; `list`/`tuple`/`set` are rebuilt as the same container type with
converted elements; any other value is unchanged. -/
def convSpec : PyVal → PyVal
  | .dict kvs => .dotdict (convSpecD kvs)
  | .list xs => .list (convSpecL xs)
  | .tuple xs => .tuple (convSpecL xs)
  | .setv xs => .setv (convSpecL xs)
  | v => v

def convSpecD : List (PyKey × PyVal) → List (PyKey × PyVal)
  | [] => []
  | (k, v) :: rest => (k, convSpec v) :: convSpecD rest

def convSpecL : List PyVal → List PyVal
  | [] => []
  | x :: xs => convSpec x :: convSpecL xs

end

/-- A key admissible by `DotDict.__setitem__`: a non-reserved string. -/
def okKeyW : PyKey → Bool
  | .str s => decide (s ∉ mmAttrs)
  | _ => false

mutual

/-- Every mapping reachable through dict / list / tuple / set nesting has
distinct keys, all of them non-reserved strings (so `to_dotdict` converts it
without error). -/
def convOkV : PyVal → Bool
  | .dict kvs => decide (dkeys kvs).Nodup && convOkD kvs
  | .list xs => convOkL xs
  | .tuple xs => convOkL xs
  | .setv xs => convOkL xs
  | _ => true

def convOkD : List (PyKey × PyVal) → Bool
  | [] => true
  | (k, v) :: rest => okKeyW k && convOkV v && convOkD rest

def convOkL : List PyVal → Bool
  | [] => true
  | x :: xs => convOkV x && convOkL xs

end

/-! ## A store model of merge_dicts

To state that `merge_dicts` mutates neither input, Python object identity is
made explicit: a heap maps addresses to plain-dict entry lists, dict-valued
entries hold the address of the value (`HVal.ref`); any other value is an
opaque leaf.  `merge_dicts` allocates a copy of its first argument
(`d1.copy()`), mutates only that copy through item assignment, and recurses;
the fuel bounds the recursion depth (Python would hit the recursion limit on
a cyclic heap). -/

/-- A value stored in a heap dict: a reference to another dict, or a leaf. -/
inductive HVal where
  | ref : Nat → HVal
  | atom : Int → HVal
  deriving DecidableEq, Repr

abbrev HDict := List (PyKey × HVal)

abbrev Heap := List (Nat × HDict)

/-- Dereference an address. -/
def hlook : Heap → Nat → Option HDict
  | [], _ => none
  | (a, e) :: rest, x => if x = a then some e else hlook rest x

/-- Overwrite the cell at an (existing) address. -/
def hset : Heap → Nat → HDict → Heap
  | [], _, _ => []
  | (a, e) :: rest, x, e' =>
      if x = a then (a, e') :: rest else (a, e) :: hset rest x e'

/-- The allocated addresses. -/
def hdom (h : Heap) : List Nat := h.map Prod.fst

/-- An address not yet allocated. -/
def freshA (h : Heap) : Nat := (hdom h).foldr max 0 + 1

/-- Association lookup in a heap dict. -/
def hlookA : HDict → PyKey → Option HVal
  | [], _ => none
  | (k', v) :: rest, k => if k = k' then some v else hlookA rest k

/-- Item assignment in a heap dict. -/
def hsetA : HDict → PyKey → HVal → HDict
  | [], k, v => [(k, v)]
  | (k', v') :: rest, k, v =>
      if k = k' then (k', v) :: rest else (k', v') :: hsetA rest k v

mutual

/-- `merge_dicts` on the store: copy `d1` into a fresh cell, then walk the
entries of `d2`, either recursing (both values are dict references) or
assigning, always into the fresh cell.  `none` models fuel exhaustion or a
dangling address — never reached from a well-formed call. -/
def mergeH (fuel : Nat) (h : Heap) (a b : Nat) : Option (Heap × Nat) :=
  match fuel with
  | 0 => none
  | fuel' + 1 =>
      match hlook h a, hlook h b with
      | some ea, some eb => mergeGoH fuel' ((freshA h, ea) :: h) (freshA h) eb
      | _, _ => none
termination_by (fuel, 0)

/-- The loop over the entries of `d2`, mutating the copy at address `n`. -/
def mergeGoH (fuel : Nat) (h : Heap) (n : Nat) (l : HDict) : Option (Heap × Nat) :=
  match l with
  | [] => some (h, n)
  | (k, v) :: rest =>
      match hlook h n with
      | none => none
      | some en =>
          match hlookA en k, v with
          | some (.ref a1), .ref b1 =>
              match mergeH fuel h a1 b1 with
              | some (h1, r) =>
                  match hlook h1 n with
                  | some en1 => mergeGoH fuel (hset h1 n (hsetA en1 k (.ref r))) n rest
                  | none => none
              | none => none
          | _, _ => mergeGoH fuel (hset h n (hsetA en k v)) n rest
termination_by (fuel, l.length + 1)

end

mutual

/-- Read a heap value back as a structural value (fuel-bounded). -/
def reify (fuel : Nat) (h : Heap) : HVal → Option PyVal
  | .atom n => some (.atom n)
  | .ref a =>
      match fuel with
      | 0 => none
      | fuel' + 1 =>
          match hlook h a with
          | some e =>
              match reifyE fuel' h e with
              | some l => some (.dict l)
              | none => none
          | none => none
termination_by _ => (fuel, 0)

/-- Read the entries of a heap dict back. -/
def reifyE (fuel : Nat) (h : Heap) : HDict → Option Dict
  | [] => some []
  | (k, v) :: rest =>
      match reify fuel h v, reifyE fuel h rest with
      | some w, some l => some ((k, w) :: l)
      | _, _ => none
termination_by l => (fuel, l.length + 1)

end

/-- The key is not an empty `CompoundKey` (an empty one makes
`flatdict_to_dict` fail on `k[-1]`). -/
def keyOkC : PyKey → Bool
  | .compound ps => !ps.isEmpty
  | _ => true

/-- `flatdict_to_dict` replaying `k₂` cannot run into a leaf planted by `k₁`:
a `CompoundKey` path may not be a proper initial segment of another, and a
non-`CompoundKey` key may not equal the first segment of a `CompoundKey`
path. -/
def noConfl : PyKey → PyKey → Bool
  | .compound ps, .compound qs => !(keyPre ps qs) || decide (ps = qs)
  | k, .compound (q :: _) => decide (q ≠ k)
  | _, _ => true

/-- A sufficient condition for `flatdict_to_dict` to succeed: no empty
`CompoundKey`, and no pair of entries in conflict (in either order). -/
def unflatSafe : List (PyKey × PyVal) → Bool
  | [] => true
  | (k, _) :: rest =>
      keyOkC k && rest.all (fun kv => noConfl k kv.1 && noConfl kv.1 k) &&
        unflatSafe rest

/-! ## Lemmas about DotDict -/

theorem dd_setitem_ok_iff {st : Dict} {k : PyKey} {v : PyVal} {s' : Dict} :
    dd_setitem st k v = .ok s' ↔
      (∃ name, k = .str name ∧ name ∉ mmAttrs) ∧ s' = aset st k v := by
  cases k with
  | str name =>
      by_cases hm : name ∈ mmAttrs <;> simp [dd_setitem, dd_check, hm, eq_comm]
  | int n => simp [dd_setitem, dd_check]
  | tup l => simp [dd_setitem, dd_check]
  | compound l => simp [dd_setitem, dd_check]

theorem dd_setitem_nonstring {st : Dict} {k : PyKey} (v : PyVal)
    (h : k.isStr = false) :
    dd_setitem st k v = .error (.typeError "attribute name must be string") := by
  cases k with
  | str name => simp [PyKey.isStr] at h
  | int n => rfl
  | tup l => rfl
  | compound l => rfl

theorem onlyStrKeys_aset {st : Dict} {k : PyKey} (v : PyVal)
    (hst : onlyStrKeys st = true) (hk : k.isStr = true) :
    onlyStrKeys (aset st k v) = true := by
  induction st with
  | nil => simpa [onlyStrKeys, aset]
  | cons kv rest ih =>
      obtain ⟨k', v'⟩ := kv
      simp only [onlyStrKeys, List.all_cons, Bool.and_eq_true] at hst
      by_cases hkk : k = k'
      · simp [aset, hkk, onlyStrKeys, hst.1, hst.2]
      · have := ih hst.2
        simp only [onlyStrKeys, List.all_cons, Bool.and_eq_true] at this ⊢
        simp [aset, hkk, hst.1, this]

theorem onlyStrKeys_adel {st : Dict} (k : PyKey)
    (hst : onlyStrKeys st = true) : onlyStrKeys (adel st k) = true := by
  induction st with
  | nil => simpa [adel]
  | cons kv rest ih =>
      obtain ⟨k', v'⟩ := kv
      simp only [onlyStrKeys, List.all_cons, Bool.and_eq_true] at hst
      by_cases hkk : k = k'
      · simp [adel, hkk, onlyStrKeys, hst.2]
      · have := ih hst.2
        simp only [onlyStrKeys, List.all_cons, Bool.and_eq_true] at this ⊢
        simp [adel, hkk, hst.1, this]

theorem dd_update_onlyStr {l : List (PyKey × PyVal)} :
    ∀ {st s' : Dict}, onlyStrKeys st = true → dd_update st l = .ok s' →
      onlyStrKeys s' = true := by
  induction l with
  | nil =>
      intro st s' hst h
      simp only [dd_update, Except.ok.injEq] at h
      exact h ▸ hst
  | cons kv rest ih =>
      intro st s' hst h
      obtain ⟨k, v⟩ := kv
      simp only [dd_update] at h
      cases hset : dd_setitem st k v with
      | error e => rw [hset] at h; exact absurd h (by simp)
      | ok st1 =>
          rw [hset] at h
          obtain ⟨⟨name, hk, _⟩, hst1⟩ := dd_setitem_ok_iff.mp hset
          refine ih ?_ h
          subst hst1
          exact onlyStrKeys_aset v hst (by simp [hk, PyKey.isStr])

theorem dd_init_onlyStr {l kw : Dict} {s : Dict} (h : dd_init l kw = .ok s) :
    onlyStrKeys s = true := by
  simp only [dd_init] at h
  cases h1 : dd_update [] l with
  | error e => rw [h1] at h; exact absurd h (by simp)
  | ok s1 =>
      rw [h1] at h
      exact dd_update_onlyStr (dd_update_onlyStr (by rfl) h1) h

theorem alookup_adel_self {st : Dict} {k : PyKey}
    (hnd : (dkeys st).Nodup) : alookup (adel st k) k = none := by
  induction st with
  | nil => simp [adel]
  | cons kv rest ih =>
      obtain ⟨k', v'⟩ := kv
      simp only [dkeys_cons, List.nodup_cons] at hnd
      by_cases hkk : k = k'
      · subst hkk
        simp [adel, alookup_eq_none_of_not_mem hnd.1]
      · simp [adel, hkk, alookup, ih hnd.2]

theorem dd_update_from_valid {l : Dict} :
    ∀ {st : Dict}, (∀ kv ∈ l, okKeyW kv.1 = true) →
      (∀ kv ∈ l, kv.1 ∉ dkeys st) → (dkeys l).Nodup →
      dd_update st l = .ok (st ++ l) := by
  induction l with
  | nil => intro st _ _ _; simp [dd_update]
  | cons kv rest ih =>
      intro st hok hdisj hnd
      obtain ⟨k, v⟩ := kv
      have hk := hok (k, v) (by simp)
      have hset : dd_setitem st k v = .ok (aset st k v) := by
        cases k with
        | str name =>
            simp only [okKeyW, decide_eq_true_eq] at hk
            simp [dd_setitem, dd_check, hk]
        | int n => simp [okKeyW] at hk
        | tup xs => simp [okKeyW] at hk
        | compound xs => simp [okKeyW] at hk
      have hmem : k ∉ dkeys st := hdisj (k, v) (by simp)
      rw [aset_eq_append v hmem] at hset
      simp only [dkeys_cons, List.nodup_cons] at hnd
      simp only [dd_update, hset]
      rw [ih (fun kv h => hok kv (by simp [h]))
        (fun kv h => by
          simp only [dkeys_append, List.mem_append, not_or]
          refine ⟨hdisj kv (by simp [h]), ?_⟩
          simp only [dkeys_cons, dkeys_nil, List.mem_singleton]
          intro hc
          exact hnd.1 (by rw [← hc]; exact List.mem_map_of_mem Prod.fst h)) hnd.2]
      simp

theorem dd_copy_valid {st : Dict}
    (hok : ∀ kv ∈ st, okKeyW kv.1 = true) (hnd : (dkeys st).Nodup) :
    dd_copy st = .ok st := by
  simp only [dd_copy, dd_init]
  rw [dd_update_from_valid hok (by simp [dkeys]) hnd]
  simp [dd_update]

/-- C-helper: a state whose `validState` holds has admissible distinct keys. -/
theorem validState_parts {st : Dict} (h : validState st = true) :
    (∀ kv ∈ st, okKeyW kv.1 = true) ∧ (dkeys st).Nodup := by
  simp only [validState, Bool.and_eq_true, List.all_eq_true, decide_eq_true_eq] at h
  refine ⟨fun kv hkv => ?_, h.2⟩
  have := h.1 kv hkv
  cases hk : kv.1 with
  | str s => rw [hk] at this; simpa [okKeyW]
  | int n => rw [hk] at this; simp at this
  | tup l => rw [hk] at this; simp at this
  | compound l => rw [hk] at this; simp at this

theorem dd_delitem_ok {st : Dict} {k : PyKey} {s' : Dict}
    (h : dd_delitem st k = .ok s') : s' = adel st k := by
  by_cases hm : k ∈ dkeys st <;> simp [dd_delitem, hm] at h
  exact h.symm

/-! ## Claim theorems about DotDict -/

/-- C4: setting a key on the attribute-accessible mapping whose name collides
with a name reserved by the base mapping capability set — e.g. `"keys"`,
`"items"`, `"get"`, `"update"` — fails by raising the reserved-key error (the
spec's `ReservedKeyError`, realised in the code as `ValueError("no sir")`);
attribute assignment routes through the same `__setitem__` check. -/
theorem C4_reserved_key_write_raises (s : Dict) (v : PyVal) (name : String)
    (h : name = "keys" ∨ name = "items" ∨ name = "get" ∨ name = "update") :
    dd_setitem s (.str name) v = .error (.valueError "no sir") ∧
    dd_setattr s name v = .error (.valueError "no sir") := by
  have hm : name ∈ mmAttrs := by
    rcases h with rfl | rfl | rfl | rfl <;> simp [mmAttrs]
  constructor <;> simp [dd_setattr, dd_setitem, dd_check, hm]

theorem C4_reserved_key_write_raises_witness :
    dd_setitem [] (.str "items") (.atom 1) = .error (.valueError "no sir") :=
  (C4_reserved_key_write_raises [] (.atom 1) "items" (by simp)).1

/-- C5: for a `DotDict`, reading the field named `k` and reading the mapping
entry `k` give the same value (they read the same storage, the instance
`__dict__`); writing through either path updates that same storage, so the
agreement is preserved by construction (which only runs `__setitem__`),
get, set, attribute-set, delete, iteration and `copy()`. -/
theorem C5_attribute_item_agreement :
    (∀ (s : Dict) (name : String) (v : PyVal), alookup s (.str name) = some v →
        dd_getattr s name = .val v ∧ dd_getitem s (.str name) = .ok v) ∧
    (∀ (s s' : Dict) (name : String) (v : PyVal), dd_setattr s name v = .ok s' →
        dd_getattr s' name = .val v ∧ dd_getitem s' (.str name) = .ok v) ∧
    (∀ (s s' : Dict) (k : PyKey) (v : PyVal) (name : String),
        dd_setitem s k v = .ok s' → k = .str name →
        dd_getattr s' name = .val v ∧ dd_getitem s' k = .ok v) ∧
    (∀ (s s' : Dict) (name : String), (dkeys s).Nodup →
        dd_delitem s (.str name) = .ok s' →
        dd_getitem s' (.str name) = .error .keyError ∧
        ∀ w, dd_getattr s' name ≠ .val w) ∧
    (∀ s s' : Dict, (dkeys s).Nodup → (∀ kv ∈ s, okKeyW kv.1 = true) →
        dd_copy s = .ok s' → s' = s) := by
  refine ⟨?_, ?_, ?_, ?_, ?_⟩
  · intro s name v h
    simp [dd_getattr, dd_getitem, h]
  · intro s s' name v h
    obtain ⟨-, rfl⟩ := dd_setitem_ok_iff.mp h
    simp [dd_getattr, dd_getitem, alookup_aset_self]
  · intro s s' k v name h hk
    subst hk
    obtain ⟨-, rfl⟩ := dd_setitem_ok_iff.mp h
    simp [dd_getattr, dd_getitem, alookup_aset_self]
  · intro s s' name hnd h
    obtain rfl := dd_delitem_ok h
    have hnone := alookup_adel_self (k := .str name) hnd
    refine ⟨by simp [dd_getitem, hnone], fun w => ?_⟩
    simp only [dd_getattr, hnone]
    split <;> simp
  · intro s s' hnd hok h
    rw [dd_copy_valid hok hnd] at h
    exact (Except.ok.injEq _ _ ▸ h).symm

theorem C5_attribute_item_agreement_witness :
    dd_getattr [(.str "foo", .atom 5)] "foo" = .val (.atom 5) ∧
    dd_getitem [(.str "foo", .atom 5)] (.str "foo") = .ok (.atom 5) :=
  C5_attribute_item_agreement.1 [(.str "foo", .atom 5)] "foo" (.atom 5) rfl

/-- C9: `DotDict.__setitem__` rejects exactly the string keys that are
attribute names of the `MutableMapping` abstract base class — the keys on
which `hasattr(MutableMapping, ·)` holds, metaclass-provided names such as
`mro` and `register` included; `"copy"`, which `DotDict` defines but
`MutableMapping` does not, is accepted: the write succeeds, the entry is
readable back, and it shadows the class `copy` method on attribute reads. -/
theorem C9_rejects_exactly_mm_attrs :
    (∀ (s : Dict) (name : String) (v : PyVal),
        (∃ e, dd_setitem s (.str name) v = .error e) ↔ name ∈ mmAttrs) ∧
    ("copy" ∉ mmAttrs) ∧
    (∀ (s : Dict) (v : PyVal),
        dd_setitem s (.str "copy") v = .ok (aset s (.str "copy") v) ∧
        dd_getitem (aset s (.str "copy") v) (.str "copy") = .ok v ∧
        dd_getattr (aset s (.str "copy") v) "copy" = .val v) := by
  have hcopy : "copy" ∉ mmAttrs := by simp [mmAttrs]
  refine ⟨?_, hcopy, ?_⟩
  · intro s name v
    by_cases hm : name ∈ mmAttrs <;> simp [dd_setitem, dd_check, hm]
  · intro s v
    refine ⟨by simp [dd_setitem, dd_check, hcopy], ?_, ?_⟩
    · simp [dd_getitem, alookup_aset_self]
    · simp [dd_getattr, alookup_aset_self]

/-- C10: every write to a `DotDict` with a non-string key raises (`hasattr`
requires a string attribute name), and since construction, `update` and
`copy` all route through `__setitem__`, every reachable `DotDict` state
contains only string keys. -/
theorem C10_string_keys_invariant :
    (∀ (s : Dict) (k : PyKey) (v : PyVal), k.isStr = false →
        dd_setitem s k v = .error (.typeError "attribute name must be string")) ∧
    (∀ s : Dict, Reach s → onlyStrKeys s = true) := by
  constructor
  · intro s k v h
    exact dd_setitem_nonstring v h
  · intro s h
    induction h with
    | init l kw s h => exact dd_init_onlyStr h
    | set s k v s' _ hset ih =>
        obtain ⟨⟨name, hk, -⟩, rfl⟩ := dd_setitem_ok_iff.mp hset
        exact onlyStrKeys_aset v ih (by simp [hk, PyKey.isStr])
    | del s k s' _ hdel ih =>
        obtain rfl := dd_delitem_ok hdel
        exact onlyStrKeys_adel k ih
    | copy s s' _ hcopy ih => exact dd_init_onlyStr hcopy

theorem C10_string_keys_invariant_witness :
    dd_setitem [] (.int 0) (.atom 0) =
      .error (.typeError "attribute name must be string") ∧
    onlyStrKeys [] = true :=
  ⟨C10_string_keys_invariant.1 [] (.int 0) (.atom 0) rfl,
   C10_string_keys_invariant.2 [] (Reach.init [] [] [] rfl)⟩

/-! ## Lemmas about paths, walks and grafting -/

theorem alookup_append (d₁ d₂ : Dict) (k : PyKey) :
    alookup (d₁ ++ d₂) k =
      match alookup d₁ k with
      | some v => some v
      | none => alookup d₂ k := by
  induction d₁ with
  | nil => simp [alookup]
  | cons kv rest ih =>
      obtain ⟨k', v'⟩ := kv
      by_cases hk : k = k' <;> simp [alookup, hk, ih]

theorem aset_aset_same (d : Dict) (k : PyKey) (x y : PyVal) :
    aset (aset d k x) k y = aset d k y := by
  induction d with
  | nil => simp [aset]
  | cons kv rest ih =>
      obtain ⟨k', v'⟩ := kv
      by_cases hk : k = k' <;> simp [aset, hk, ih]

theorem walkOk_nil_dict (ps : List PyKey) : walkOk [] ps = true := by
  cases ps <;> simp [walkOk, alookup]

theorem keysAt_nil_dict (ps : List PyKey) : keysAt [] ps = [] := by
  cases ps <;> simp [keysAt, alookup, dkeys]

theorem splitLast_concat :
    ∀ (xs : List PyKey) (x p : PyKey) (ps : List PyKey),
      xs ++ [x] = p :: ps → splitLast p ps = (xs, x)
  | [], x, p, ps, h => by
      simp only [List.nil_append, List.cons.injEq] at h
      obtain ⟨rfl, rfl⟩ := h
      rfl
  | z :: zs, x, p, ps, h => by
      simp only [List.cons_append, List.cons.injEq] at h
      obtain ⟨rfl, h2⟩ := h
      cases ps with
      | nil => exact absurd h2 (by simp)
      | cons y ys =>
          simp [splitLast, splitLast_concat zs x y ys h2]

theorem splitLast_append (p : PyKey) :
    ∀ (ps : List PyKey), (splitLast p ps).1 ++ [(splitLast p ps).2] = p :: ps := by
  intro ps
  induction ps generalizing p with
  | nil => rfl
  | cons y ys ih => simp [splitLast, ih y]

theorem keyPre_length : ∀ {ps qs : List PyKey}, keyPre ps qs = true →
    ps.length ≤ qs.length := by
  intro ps
  induction ps with
  | nil => simp
  | cons p ps ih =>
      intro qs h
      cases qs with
      | nil => simp [keyPre] at h
      | cons q qs =>
          simp only [keyPre, Bool.and_eq_true] at h
          simpa using ih h.2

theorem keyPre_append_right {ps qs : List PyKey} (r : List PyKey)
    (h : keyPre ps qs = true) : keyPre ps (qs ++ r) = true := by
  induction ps generalizing qs with
  | nil => simp [keyPre]
  | cons p ps ih =>
      cases qs with
      | nil => simp [keyPre] at h
      | cons q qs =>
          simp only [keyPre, Bool.and_eq_true] at h ⊢
          exact ⟨h.1, ih h.2⟩

/-- Writing a leaf at path `ps ++ [last]` keeps every walk that does not go
through the freshly written position intact. -/
theorem walkOk_setPath :
    ∀ (ps : List PyKey) (last : PyKey) (v : PyVal) (d d' : Dict)
      (qs : List PyKey),
      walkOk d qs = true → setPath d ps last v = some d' →
      keyPre (ps ++ [last]) qs = false → walkOk d' qs = true
  | [], last, v, d, d', qs, hw, hsp, hpre => by
      simp only [setPath, Option.some.injEq] at hsp
      subst hsp
      cases qs with
      | nil => rfl
      | cons q qs =>
          have hql : q ≠ last := by
            intro h
            subst h
            simp [keyPre] at hpre
          simp only [walkOk, alookup_aset_ne d q last v hql]
          exact hw
  | p :: ps, last, v, d, d', qs, hw, hsp, hpre => by
      cases hl : alookup d p with
      | none =>
          cases hin : setPath [] ps last v with
          | none => simp [setPath, hl, hin] at hsp
          | some w =>
              simp only [setPath, hl, hin, Option.some.injEq] at hsp
              subst hsp
              cases qs with
              | nil => rfl
              | cons q qs =>
                  by_cases hqp : q = p
                  · subst hqp
                    simp only [walkOk, alookup_aset_self]
                    refine walkOk_setPath ps last v [] w qs
                      (walkOk_nil_dict qs) hin ?_
                    simpa [keyPre] using hpre
                  · simpa only [walkOk, alookup_aset_ne d q p _ hqp] using hw
      | some w0 =>
          cases w0 with
          | dict d1 =>
              cases hin : setPath d1 ps last v with
              | none => simp [setPath, hl, hin] at hsp
              | some d1' =>
                  simp only [setPath, hl, hin, Option.some.injEq] at hsp
                  subst hsp
                  cases qs with
                  | nil => rfl
                  | cons q qs =>
                      by_cases hqp : q = p
                      · subst hqp
                        simp only [walkOk, alookup_aset_self]
                        have hw1 : walkOk d1 qs = true := by
                          simpa [walkOk, hl] using hw
                        refine walkOk_setPath ps last v d1 d1' qs hw1 hin ?_
                        simpa [keyPre] using hpre
                      · simpa only [walkOk, alookup_aset_ne d q p _ hqp] using hw
          | dotdict e => simp [setPath, hl] at hsp
          | list xs => simp [setPath, hl] at hsp
          | tuple xs => simp [setPath, hl] at hsp
          | setv xs => simp [setPath, hl] at hsp
          | atom n => simp [setPath, hl] at hsp

/-- A `setdefault` walk that never meets a non-dict value succeeds. -/
theorem setPath_isSome :
    ∀ (ps : List PyKey) (d : Dict) (last : PyKey) (v : PyVal),
      walkOk d ps = true → ∃ d', setPath d ps last v = some d'
  | [], d, last, v, _ => ⟨aset d last v, rfl⟩
  | p :: ps, d, last, v, hw => by
      cases hl : alookup d p with
      | none =>
          obtain ⟨w, hin⟩ := setPath_isSome ps [] last v (walkOk_nil_dict ps)
          exact ⟨aset d p (.dict w), by simp [setPath, hl, hin]⟩
      | some w0 =>
          cases w0 with
          | dict d1 =>
              have hw1 : walkOk d1 ps = true := by simpa [walkOk, hl] using hw
              obtain ⟨w, hin⟩ := setPath_isSome ps d1 last v hw1
              exact ⟨aset d p (.dict w), by simp [setPath, hl, hin]⟩
          | dotdict e => simp [walkOk, hl] at hw
          | list xs => simp [walkOk, hl] at hw
          | tuple xs => simp [walkOk, hl] at hw
          | setv xs => simp [walkOk, hl] at hw
          | atom n => simp [walkOk, hl] at hw

theorem walkOk_snoc :
    ∀ (parent : List PyKey) (acc : Dict) (k : PyKey),
      walkOk acc parent = true → k ∉ keysAt acc parent →
      walkOk acc (parent ++ [k]) = true
  | [], acc, k, _, hk => by
      have : alookup acc k = none :=
        alookup_eq_none_of_not_mem (by simpa [keysAt] using hk)
      simp [walkOk, this]
  | p :: parent, acc, k, hw, hk => by
      cases hl : alookup acc p with
      | none => simp [walkOk, hl]
      | some w0 =>
          cases w0 with
          | dict d1 =>
              have hw1 : walkOk d1 parent = true := by simpa [walkOk, hl] using hw
              have hk1 : k ∉ keysAt d1 parent := by simpa [keysAt, hl] using hk
              simpa [walkOk, hl] using walkOk_snoc parent d1 k hw1 hk1
          | dotdict e => simp [walkOk, hl] at hw
          | list xs => simp [walkOk, hl] at hw
          | tuple xs => simp [walkOk, hl] at hw
          | setv xs => simp [walkOk, hl] at hw
          | atom n => simp [walkOk, hl] at hw

theorem keysAt_snoc_empty :
    ∀ (parent : List PyKey) (acc : Dict) (k : PyKey),
      k ∉ keysAt acc parent → keysAt acc (parent ++ [k]) = []
  | [], acc, k, hk => by
      have : alookup acc k = none :=
        alookup_eq_none_of_not_mem (by simpa [keysAt] using hk)
      simp [keysAt, this]
  | p :: parent, acc, k, hk => by
      cases hl : alookup acc p with
      | none => simp [keysAt, hl]
      | some w0 =>
          cases w0 with
          | dict d1 =>
              have hk1 : k ∉ keysAt d1 parent := by simpa [keysAt, hl] using hk
              simpa [keysAt, hl] using keysAt_snoc_empty parent d1 k hk1
          | dotdict e => simp [keysAt, hl]
          | list xs => simp [keysAt, hl]
          | tuple xs => simp [keysAt, hl]
          | setv xs => simp [keysAt, hl]
          | atom n => simp [keysAt, hl]

theorem walkOk_graft :
    ∀ (parent : List PyKey) (acc : Dict) (A : Dict),
      walkOk acc parent = true → walkOk (graftGo acc parent A) parent = true
  | [], _, _, _ => rfl
  | p :: parent, acc, A, hw => by
      cases hl : alookup acc p with
      | none =>
          simp only [graftGo, hl, walkOk, alookup_aset_self]
          exact walkOk_graft parent [] A (walkOk_nil_dict parent)
      | some w0 =>
          cases w0 with
          | dict d1 =>
              have hw1 : walkOk d1 parent = true := by simpa [walkOk, hl] using hw
              simp only [graftGo, hl, walkOk, alookup_aset_self]
              exact walkOk_graft parent d1 A hw1
          | dotdict e => simp [walkOk, hl] at hw
          | list xs => simp [walkOk, hl] at hw
          | tuple xs => simp [walkOk, hl] at hw
          | setv xs => simp [walkOk, hl] at hw
          | atom n => simp [walkOk, hl] at hw

theorem keysAt_graft :
    ∀ (parent : List PyKey) (acc : Dict) (A : Dict),
      walkOk acc parent = true →
      keysAt (graftGo acc parent A) parent = keysAt acc parent ++ dkeys A
  | [], acc, A, _ => by simp [graftGo, keysAt, dkeys_append]
  | p :: parent, acc, A, hw => by
      cases hl : alookup acc p with
      | none =>
          simp only [graftGo, hl, keysAt, alookup_aset_self]
          simp [keysAt_graft parent [] A (walkOk_nil_dict parent), keysAt_nil_dict]
      | some w0 =>
          cases w0 with
          | dict d1 =>
              have hw1 : walkOk d1 parent = true := by simpa [walkOk, hl] using hw
              simp only [graftGo, hl, keysAt, alookup_aset_self]
              exact keysAt_graft parent d1 A hw1
          | dotdict e => simp [walkOk, hl] at hw
          | list xs => simp [walkOk, hl] at hw
          | tuple xs => simp [walkOk, hl] at hw
          | setv xs => simp [walkOk, hl] at hw
          | atom n => simp [walkOk, hl] at hw

theorem graft_snoc :
    ∀ (parent : List PyKey) (acc : Dict) (k : PyKey) (dv : Dict),
      walkOk acc parent = true → k ∉ keysAt acc parent →
      graftGo acc (parent ++ [k]) dv = graftGo acc parent [(k, .dict dv)]
  | [], acc, k, dv, _, hk => by
      have h0 : alookup acc k = none :=
        alookup_eq_none_of_not_mem (by simpa [keysAt] using hk)
      simp only [List.nil_append, graftGo, h0]
      exact aset_eq_append (PyVal.dict dv) (by simpa [keysAt] using hk)
  | p :: parent, acc, k, dv, hw, hk => by
      cases hl : alookup acc p with
      | none =>
          simp only [List.cons_append, graftGo, hl]
          exact congrArg (fun X => aset acc p (PyVal.dict X))
            (graft_snoc parent [] k dv (walkOk_nil_dict parent)
              (by simp [keysAt_nil_dict]))
      | some w0 =>
          cases w0 with
          | dict d1 =>
              have hw1 : walkOk d1 parent = true := by simpa [walkOk, hl] using hw
              have hk1 : k ∉ keysAt d1 parent := by simpa [keysAt, hl] using hk
              simp only [List.cons_append, graftGo, hl]
              exact congrArg (fun X => aset acc p (PyVal.dict X))
                (graft_snoc parent d1 k dv hw1 hk1)
          | dotdict e => simp [walkOk, hl] at hw
          | list xs => simp [walkOk, hl] at hw
          | tuple xs => simp [walkOk, hl] at hw
          | setv xs => simp [walkOk, hl] at hw
          | atom n => simp [walkOk, hl] at hw

theorem graft_graft :
    ∀ (parent : List PyKey) (acc : Dict) (A B : Dict),
      walkOk acc parent = true →
      graftGo (graftGo acc parent A) parent B = graftGo acc parent (A ++ B)
  | [], acc, A, B, _ => by simp [graftGo]
  | p :: parent, acc, A, B, hw => by
      cases hl : alookup acc p with
      | none =>
          simp only [graftGo, hl, alookup_aset_self, aset_aset_same]
          rw [graft_graft parent [] A B (walkOk_nil_dict parent)]
      | some w0 =>
          cases w0 with
          | dict d1 =>
              have hw1 : walkOk d1 parent = true := by simpa [walkOk, hl] using hw
              simp only [graftGo, hl, alookup_aset_self, aset_aset_same]
              rw [graft_graft parent d1 A B hw1]
          | dotdict e => simp [walkOk, hl] at hw
          | list xs => simp [walkOk, hl] at hw
          | tuple xs => simp [walkOk, hl] at hw
          | setv xs => simp [walkOk, hl] at hw
          | atom n => simp [walkOk, hl] at hw

/-- Replaying one flat leaf entry through the `setdefault` walk appends the
leaf to the dict at the parent path. -/
theorem setPath_graft :
    ∀ (parent : List PyKey) (acc : Dict) (k : PyKey) (v : PyVal),
      walkOk acc parent = true → k ∉ keysAt acc parent →
      setPath acc parent k v = some (graftGo acc parent [(k, v)])
  | [], acc, k, v, _, hk => by
      simp only [setPath, graftGo, Option.some.injEq]
      exact aset_eq_append v (by simpa [keysAt] using hk)
  | p :: parent, acc, k, v, hw, hk => by
      cases hl : alookup acc p with
      | none =>
          have := setPath_graft parent [] k v (walkOk_nil_dict parent)
            (by simp [keysAt_nil_dict])
          simp [setPath, hl, this, graftGo]
      | some w0 =>
          cases w0 with
          | dict d1 =>
              have hw1 : walkOk d1 parent = true := by simpa [walkOk, hl] using hw
              have hk1 : k ∉ keysAt d1 parent := by simpa [keysAt, hl] using hk
              have := setPath_graft parent d1 k v hw1 hk1
              simp [setPath, hl, this, graftGo]
          | dotdict e => simp [walkOk, hl] at hw
          | list xs => simp [walkOk, hl] at hw
          | tuple xs => simp [walkOk, hl] at hw
          | setv xs => simp [walkOk, hl] at hw
          | atom n => simp [walkOk, hl] at hw

theorem f2dGo_append :
    ∀ (A : List (PyKey × PyVal)) (acc : Dict) (B : List (PyKey × PyVal)),
      f2dGo acc (A ++ B) =
        match f2dGo acc A with
        | some acc' => f2dGo acc' B
        | none => none
  | [], acc, B => by simp [f2dGo]
  | (k, v) :: rest, acc, B => by
      cases k with
      | compound ps =>
          cases ps with
          | nil => simp [f2dGo]
          | cons p ps' =>
              simp only [List.cons_append, f2dGo]
              cases setPath acc (splitLast p ps').1 (splitLast p ps').2 v with
              | none => rfl
              | some acc' => exact f2dGo_append rest acc' B
      | str s => simpa only [List.cons_append, f2dGo] using
          f2dGo_append rest (aset acc (.str s) v) B
      | int n => simpa only [List.cons_append, f2dGo] using
          f2dGo_append rest (aset acc (.int n) v) B
      | tup xs => simpa only [List.cons_append, f2dGo] using
          f2dGo_append rest (aset acc (.tup xs) v) B

/-- Replaying one flat leaf entry at the head of the worklist grafts it and
continues. -/
theorem f2dGo_leaf_step (acc : Dict) (parent : List PyKey) (k : PyKey)
    (v : PyVal) (rest : List (PyKey × PyVal)) (hw : walkOk acc parent = true)
    (hk : k ∉ keysAt acc parent) :
    f2dGo acc ((.compound (parent ++ [k]), v) :: rest) =
      f2dGo (graftGo acc parent [(k, v)]) rest := by
  cases hp : parent ++ [k] with
  | nil => exact absurd hp (by simp)
  | cons p ps =>
      simp only [f2dGo, splitLast_concat parent k p ps hp,
        setPath_graft parent acc k v hw hk]

/-- Replaying the flattened entries of a nonempty well-formed subtree `d`
(no duplicate keys, no empty nested dicts) through `flatdict_to_dict`'s loop
grafts `d` at the parent path. -/
theorem f2d_flat :
    (d : Dict) → (parent : List PyKey) → (acc : Dict) →
      wfDict d = true → neDict d = true → d ≠ [] →
      walkOk acc parent = true → (∀ j ∈ dkeys d, j ∉ keysAt acc parent) →
      f2dGo acc (dict_to_flatdict parent d) = some (graftGo acc parent d)
  | [], _, _, _, _, hne, _, _ => absurd rfl hne
  | (k, v) :: ds, parent, acc, hwf, hne, _, hwalk, hdisj => by
      have hwfp : (k ∉ dkeys ds) ∧ wfVal v = true ∧ wfDict ds = true := by
        simpa [wfDict, Bool.and_eq_true, Bool.not_eq_true',
          decide_eq_false_iff_not, and_assoc] using hwf
      have hnep : neVal v = true ∧ neDict ds = true := by
        simpa [neDict, Bool.and_eq_true] using hne
      have hdk : k ∉ keysAt acc parent := hdisj k (by simp)
      have hdisj2 : ∀ j ∈ dkeys ds, j ∉ keysAt acc parent :=
        fun j hj => hdisj j (by simp [hj])
      have hstep : f2dGo acc (dict_to_flatdict parent ((k, v) :: ds)) =
          f2dGo (graftGo acc parent [(k, v)]) (dict_to_flatdict parent ds) := by
        cases v with
        | dict dv =>
            cases dv with
            | nil => exact absurd hnep.1 (by simp [neVal])
            | cons e es =>
                have heq : dict_to_flatdict parent ((k, PyVal.dict (e :: es)) :: ds) =
                    dict_to_flatdict (parent ++ [k]) (e :: es) ++
                      dict_to_flatdict parent ds := by
                  simp [dict_to_flatdict, flatVal]
                rw [heq, f2dGo_append,
                  f2d_flat (e :: es) (parent ++ [k]) acc
                    (by simpa [wfVal] using hwfp.2.1)
                    (by simpa [neVal] using hnep.1) (by simp)
                    (walkOk_snoc parent acc k hwalk hdk)
                    (by simp [keysAt_snoc_empty parent acc k hdk]),
                  graft_snoc parent acc k (e :: es) hwalk hdk]
        | dotdict e =>
            have heq : dict_to_flatdict parent ((k, PyVal.dotdict e) :: ds) =
                (PyKey.compound (parent ++ [k]), PyVal.dotdict e) ::
                  dict_to_flatdict parent ds := by
              simp [dict_to_flatdict, flatVal]
            rw [heq, f2dGo_leaf_step acc parent k _ _ hwalk hdk]
        | list xs =>
            have heq : dict_to_flatdict parent ((k, PyVal.list xs) :: ds) =
                (PyKey.compound (parent ++ [k]), PyVal.list xs) ::
                  dict_to_flatdict parent ds := by
              simp [dict_to_flatdict, flatVal]
            rw [heq, f2dGo_leaf_step acc parent k _ _ hwalk hdk]
        | tuple xs =>
            have heq : dict_to_flatdict parent ((k, PyVal.tuple xs) :: ds) =
                (PyKey.compound (parent ++ [k]), PyVal.tuple xs) ::
                  dict_to_flatdict parent ds := by
              simp [dict_to_flatdict, flatVal]
            rw [heq, f2dGo_leaf_step acc parent k _ _ hwalk hdk]
        | setv xs =>
            have heq : dict_to_flatdict parent ((k, PyVal.setv xs) :: ds) =
                (PyKey.compound (parent ++ [k]), PyVal.setv xs) ::
                  dict_to_flatdict parent ds := by
              simp [dict_to_flatdict, flatVal]
            rw [heq, f2dGo_leaf_step acc parent k _ _ hwalk hdk]
        | atom n =>
            have heq : dict_to_flatdict parent ((k, PyVal.atom n) :: ds) =
                (PyKey.compound (parent ++ [k]), PyVal.atom n) ::
                  dict_to_flatdict parent ds := by
              simp [dict_to_flatdict, flatVal]
            rw [heq, f2dGo_leaf_step acc parent k _ _ hwalk hdk]
      rw [hstep]
      cases ds with
      | nil => simp [dict_to_flatdict, f2dGo]
      | cons d0 ds' =>
          rw [f2d_flat (d0 :: ds') parent (graftGo acc parent [(k, v)])
            hwfp.2.2 hnep.2 (by simp) (walkOk_graft parent acc _ hwalk)
            (by
              intro j hj
              rw [keysAt_graft parent acc [(k, v)] hwalk]
              simp only [List.mem_append, not_or]
              refine ⟨hdisj2 j hj, ?_⟩
              simp only [dkeys_cons, dkeys_nil, List.mem_singleton]
              intro hc
              exact hwfp.1 (hc ▸ hj)),
            graft_graft parent acc [(k, v)] (d0 :: ds') hwalk]
          simp

/-- C1: for every nested mapping `m` containing no empty nested mappings and
no tuple-typed keys other than Path Keys (and, as for every Python dict,
pairwise-distinct keys at each level), the round trip
`flatdict_to_dict (dict_to_flatdict m)` with the default mapping type
returns `m` itself. -/
theorem C1_roundtrip (m : Dict) (hwf : wfDict m = true) (hne : neDict m = true)
    (_hnt : ntDict m = true) :
    flatdict_to_dict (dict_to_flatdict [] m) = some m := by
  cases m with
  | nil => simp [dict_to_flatdict, flatdict_to_dict, f2dGo]
  | cons kv ms =>
      have := f2d_flat (kv :: ms) [] [] hwf hne (by simp) rfl
        (by simp [keysAt, dkeys])
      simpa [flatdict_to_dict, graftGo] using this

theorem C1_roundtrip_witness :
    flatdict_to_dict (dict_to_flatdict []
      [(.str "a", .dict [(.str "b", .atom 1), (.str "c", .dict [(.str "d", .atom 2)])])]) =
      some [(.str "a", .dict [(.str "b", .atom 1),
        (.str "c", .dict [(.str "d", .atom 2)])])] :=
  C1_roundtrip _ (by rfl) (by rfl) (by rfl)

theorem keyPre_single_false {k q : PyKey} {X : List PyKey} {last : PyKey}
    {qs : List PyKey} (hX : X ++ [last] = q :: qs) (hqk : q ≠ k) :
    keyPre [k] X = false := by
  cases X with
  | nil => rfl
  | cons x xs =>
      simp only [List.cons_append, List.cons.injEq] at hX
      obtain ⟨rfl, -⟩ := hX
      have hkx : k ≠ x := fun h => hqk h.symm
      simp [keyPre, hkx]

/-- The loop of `flatdict_to_dict` succeeds when no empty `CompoundKey`
occurs, no `CompoundKey` path is a proper initial segment of another, no
non-`CompoundKey` key is the first segment of a `CompoundKey` path, and
every pending walk is currently unobstructed. -/
theorem f2dGo_safe :
    (l : List (PyKey × PyVal)) → (acc : Dict) →
      unflatSafe l = true →
      (∀ kv ∈ l, ∀ p ps, kv.1 = PyKey.compound (p :: ps) →
          walkOk acc (splitLast p ps).1 = true) →
      ∃ d, f2dGo acc l = some d
  | [], acc, _, _ => ⟨acc, rfl⟩
  | (k, v) :: rest, acc, hsafe, hinv => by
      have hparts : keyOkC k = true ∧
          (∀ kv ∈ rest, noConfl k kv.1 = true ∧ noConfl kv.1 k = true) ∧
          unflatSafe rest = true := by
        simpa [unflatSafe, Bool.and_eq_true, List.all_eq_true, and_assoc]
          using hsafe
      cases k with
      | compound ps0 =>
          cases ps0 with
          | nil => simp [keyOkC] at hparts
          | cons p ps =>
              have hwself : walkOk acc (splitLast p ps).1 = true :=
                hinv (.compound (p :: ps), v) (by simp) p ps rfl
              obtain ⟨acc', hsp⟩ :=
                setPath_isSome (splitLast p ps).1 acc (splitLast p ps).2 v hwself
              have hinv' : ∀ kv ∈ rest, ∀ q qs, kv.1 = PyKey.compound (q :: qs) →
                  walkOk acc' (splitLast q qs).1 = true := by
                intro kv hkv q qs hk1
                refine walkOk_setPath (splitLast p ps).1 (splitLast p ps).2 v acc
                  acc' (splitLast q qs).1 (hinv kv (by simp [hkv]) q qs hk1) hsp ?_
                rw [splitLast_append]
                have hc := (hparts.2.1 kv hkv).1
                rw [hk1] at hc
                by_cases hkp : keyPre (p :: ps) (splitLast q qs).1 = true
                · exfalso
                  have hful : keyPre (p :: ps) (q :: qs) = true := by
                    have h4 := keyPre_append_right [(splitLast q qs).2] hkp
                    rwa [splitLast_append] at h4
                  have heq : p :: ps = q :: qs := by
                    simpa [noConfl, hful] using hc
                  have hlen := keyPre_length hkp
                  have hlen2 : (splitLast q qs).1.length = qs.length := by
                    have h3 := congrArg List.length (splitLast_append q qs)
                    simpa using h3
                  rw [hlen2] at hlen
                  have : ps.length = qs.length := by
                    have := congrArg List.length heq
                    simpa using this
                  simp only [List.length_cons, this] at hlen
                  omega
                · simpa using hkp
              obtain ⟨d, hd⟩ := f2dGo_safe rest acc' hparts.2.2 hinv'
              exact ⟨d, by simp only [f2dGo, hsp]; exact hd⟩
      | str s =>
          have hinv' : ∀ kv ∈ rest, ∀ q qs, kv.1 = PyKey.compound (q :: qs) →
              walkOk (aset acc (.str s) v) (splitLast q qs).1 = true := by
            intro kv hkv q qs hk1
            refine walkOk_setPath [] (.str s) v acc _ (splitLast q qs).1
              (hinv kv (by simp [hkv]) q qs hk1) rfl ?_
            have hc := (hparts.2.1 kv hkv).1
            rw [hk1] at hc
            have hq : q ≠ PyKey.str s := by simpa [noConfl] using hc
            simpa using keyPre_single_false (splitLast_append q qs) hq
          obtain ⟨d, hd⟩ := f2dGo_safe rest (aset acc (.str s) v)
            hparts.2.2 hinv'
          exact ⟨d, by simpa only [f2dGo] using hd⟩
      | int n =>
          have hinv' : ∀ kv ∈ rest, ∀ q qs, kv.1 = PyKey.compound (q :: qs) →
              walkOk (aset acc (.int n) v) (splitLast q qs).1 = true := by
            intro kv hkv q qs hk1
            refine walkOk_setPath [] (.int n) v acc _ (splitLast q qs).1
              (hinv kv (by simp [hkv]) q qs hk1) rfl ?_
            have hc := (hparts.2.1 kv hkv).1
            rw [hk1] at hc
            have hq : q ≠ PyKey.int n := by simpa [noConfl] using hc
            simpa using keyPre_single_false (splitLast_append q qs) hq
          obtain ⟨d, hd⟩ := f2dGo_safe rest (aset acc (.int n) v)
            hparts.2.2 hinv'
          exact ⟨d, by simpa only [f2dGo] using hd⟩
      | tup xs =>
          have hinv' : ∀ kv ∈ rest, ∀ q qs, kv.1 = PyKey.compound (q :: qs) →
              walkOk (aset acc (.tup xs) v) (splitLast q qs).1 = true := by
            intro kv hkv q qs hk1
            refine walkOk_setPath [] (.tup xs) v acc _ (splitLast q qs).1
              (hinv kv (by simp [hkv]) q qs hk1) rfl ?_
            have hc := (hparts.2.1 kv hkv).1
            rw [hk1] at hc
            have hq : q ≠ PyKey.tup xs := by simpa [noConfl] using hc
            simpa using keyPre_single_false (splitLast_append q qs) hq
          obtain ⟨d, hd⟩ := f2dGo_safe rest (aset acc (.tup xs) v)
            hparts.2.2 hinv'
          exact ⟨d, by simpa only [f2dGo] using hd⟩

/-- C3 is false as stated: `flatdict_to_dict` raises when one Path Key's
path is a proper prefix of a later one — here `("a",)` is set to a leaf and
the walk for `("a", "b")` then tries to descend into that leaf
(`TypeError` in Python, `none` in the model). -/
theorem C3_counterexample :
    flatdict_to_dict [(.compound [.str "a"], .atom 1),
      (.compound [.str "a", .str "b"], .atom 2)] = none := by
  simp [flatdict_to_dict, f2dGo, splitLast, setPath, aset, alookup]

/-- C3 (amended): `dict_to_flatdict` is total, and `flatdict_to_dict`
returns a result (raises no error) on every flat mapping in which every
Path Key has a nonempty path, no Path Key's path is a proper initial segment
of another entry's path, and no non-Path-Key key equals the first path
segment of any Path Key — in particular on every output of
`dict_to_flatdict`.  It can raise when a Path Key is empty or when one
path properly extends another. -/
theorem C3_unflatten_total (l : List (PyKey × PyVal))
    (h : unflatSafe l = true) : ∃ d, flatdict_to_dict l = some d :=
  f2dGo_safe l [] h (fun _ _ p ps _ => walkOk_nil_dict (splitLast p ps).1)

theorem C3_unflatten_total_witness :
    ∃ d, flatdict_to_dict [(.str "x", .atom 9),
      (.compound [.str "a", .str "b"], .atom 2),
      (.compound [.str "c"], .atom 1)] = some d :=
  C3_unflatten_total _ (by rfl)

/-! ## The exact content of dict_to_flatdict (C7) -/

theorem leafAt_nil_dict (p : List PyKey) (v : PyVal) : leafAt [] p v = false := by
  cases p <;> simp [leafAt, alookup]

mutual

theorem flat_mem_iff :
    (d : Dict) → (parent : List PyKey) → (key : PyKey) → (v : PyVal) →
      wfDict d = true →
      ((key, v) ∈ dict_to_flatdict parent d ↔
        ∃ p, key = PyKey.compound (parent ++ p) ∧ leafAt d p v = true)
  | [], parent, key, v, _ => by
      simp [dict_to_flatdict, leafAt_nil_dict]
  | (k, w) :: ds, parent, key, v, hwf => by
      have hwfp : (k ∉ dkeys ds) ∧ wfVal w = true ∧ wfDict ds = true := by
        simpa [wfDict, Bool.and_eq_true, Bool.not_eq_true',
          decide_eq_false_iff_not, and_assoc] using hwf
      have hds0 : alookup ds k = none := alookup_eq_none_of_not_mem hwfp.1
      simp only [dict_to_flatdict, List.mem_append]
      rw [flatVal_mem_iff w (parent ++ [k]) key v hwfp.2.1,
        flat_mem_iff ds parent key v hwfp.2.2]
      constructor
      · rintro (⟨p', hkey, hleaf⟩ | ⟨p, hkey, hleaf⟩)
        · exact ⟨k :: p', by simpa using hkey,
            by simp [leafAt, alookup_cons, hleaf]⟩
        · cases p with
          | nil => rw [leafAt] at hleaf; exact absurd hleaf (by simp)
          | cons j js =>
              have hjk : j ≠ k := by
                intro hc
                subst hc
                rw [leafAt, hds0] at hleaf
                exact absurd hleaf (by simp)
              exact ⟨j :: js, hkey, by
                rw [leafAt, alookup_cons]
                simp only [hjk, if_false]
                rw [leafAt] at hleaf
                exact hleaf⟩
      · rintro ⟨p, hkey, hleaf⟩
        cases p with
        | nil => rw [leafAt] at hleaf; exact absurd hleaf (by simp)
        | cons j js =>
            by_cases hjk : j = k
            · subst hjk
              rw [leafAt, alookup_cons] at hleaf
              simp only [if_pos rfl] at hleaf
              exact Or.inl ⟨js, by simpa using hkey, hleaf⟩
            · rw [leafAt, alookup_cons] at hleaf
              simp only [hjk, if_false] at hleaf
              refine Or.inr ⟨j :: js, hkey, ?_⟩
              rw [leafAt]
              exact hleaf

theorem flatVal_mem_iff :
    (w : PyVal) → (pk : List PyKey) → (key : PyKey) → (v : PyVal) →
      wfVal w = true →
      ((key, v) ∈ flatVal pk w ↔
        ∃ p', key = PyKey.compound (pk ++ p') ∧ leafAtV w p' v = true)
  | .dict dv, pk, key, v, hwf => by
      rw [show flatVal pk (.dict dv) = dict_to_flatdict pk dv from rfl,
        flat_mem_iff dv pk key v (by simpa [wfVal] using hwf)]
      constructor
      · rintro ⟨p, hkey, hleaf⟩
        exact ⟨p, hkey, by simpa [leafAtV] using hleaf⟩
      · rintro ⟨p, hkey, hleaf⟩
        exact ⟨p, hkey, by simpa [leafAtV] using hleaf⟩
  | .dotdict e, pk, key, v, _ => by
      constructor
      · intro hmem
        simp only [flatVal, List.mem_singleton, Prod.mk.injEq] at hmem
        exact ⟨[], by simp [hmem.1], by simp [leafAtV, hmem.2]⟩
      · rintro ⟨p', hkey, hleaf⟩
        cases p' with
        | nil =>
            simp only [leafAtV, decide_eq_true_eq] at hleaf
            simp [flatVal, hkey, hleaf]
        | cons x xs => simp [leafAtV] at hleaf
  | .list xs, pk, key, v, _ => by
      constructor
      · intro hmem
        simp only [flatVal, List.mem_singleton, Prod.mk.injEq] at hmem
        exact ⟨[], by simp [hmem.1], by simp [leafAtV, hmem.2]⟩
      · rintro ⟨p', hkey, hleaf⟩
        cases p' with
        | nil =>
            simp only [leafAtV, decide_eq_true_eq] at hleaf
            simp [flatVal, hkey, hleaf]
        | cons x xs2 => simp [leafAtV] at hleaf
  | .tuple xs, pk, key, v, _ => by
      constructor
      · intro hmem
        simp only [flatVal, List.mem_singleton, Prod.mk.injEq] at hmem
        exact ⟨[], by simp [hmem.1], by simp [leafAtV, hmem.2]⟩
      · rintro ⟨p', hkey, hleaf⟩
        cases p' with
        | nil =>
            simp only [leafAtV, decide_eq_true_eq] at hleaf
            simp [flatVal, hkey, hleaf]
        | cons x xs2 => simp [leafAtV] at hleaf
  | .setv xs, pk, key, v, _ => by
      constructor
      · intro hmem
        simp only [flatVal, List.mem_singleton, Prod.mk.injEq] at hmem
        exact ⟨[], by simp [hmem.1], by simp [leafAtV, hmem.2]⟩
      · rintro ⟨p', hkey, hleaf⟩
        cases p' with
        | nil =>
            simp only [leafAtV, decide_eq_true_eq] at hleaf
            simp [flatVal, hkey, hleaf]
        | cons x xs2 => simp [leafAtV] at hleaf
  | .atom n, pk, key, v, _ => by
      constructor
      · intro hmem
        simp only [flatVal, List.mem_singleton, Prod.mk.injEq] at hmem
        exact ⟨[], by simp [hmem.1], by simp [leafAtV, hmem.2]⟩
      · rintro ⟨p', hkey, hleaf⟩
        cases p' with
        | nil =>
            simp only [leafAtV, decide_eq_true_eq] at hleaf
            simp [flatVal, hkey, hleaf]
        | cons x xs2 => simp [leafAtV] at hleaf

end

theorem leafAt_head {d : Dict} {p : List PyKey} {v : PyVal}
    (h : leafAt d p v = true) : ∃ j js, p = j :: js ∧ j ∈ dkeys d := by
  cases p with
  | nil => rw [leafAt] at h; exact absurd h (by simp)
  | cons j js =>
      rw [leafAt] at h
      cases hl : alookup d j with
      | none => rw [hl] at h; exact absurd h (by simp)
      | some w => exact ⟨j, js, rfl, mem_dkeys_of_alookup hl⟩

mutual

theorem flat_keys_nodup :
    (d : Dict) → (parent : List PyKey) → wfDict d = true →
      ((dict_to_flatdict parent d).map Prod.fst).Nodup
  | [], _, _ => by simp [dict_to_flatdict]
  | (k, w) :: ds, parent, hwf => by
      have hwfp : (k ∉ dkeys ds) ∧ wfVal w = true ∧ wfDict ds = true := by
        simpa [wfDict, Bool.and_eq_true, Bool.not_eq_true',
          decide_eq_false_iff_not, and_assoc] using hwf
      simp only [dict_to_flatdict, List.map_append]
      rw [List.nodup_append]
      refine ⟨flatVal_keys_nodup w (parent ++ [k]) hwfp.2.1,
        flat_keys_nodup ds parent hwfp.2.2, ?_⟩
      intro key hkeyA hkeyB
      obtain ⟨pair1, hmem1, hfst1⟩ := List.mem_map.mp hkeyA
      obtain ⟨pair2, hmem2, hfst2⟩ := List.mem_map.mp hkeyB
      obtain ⟨p1, hkey1, -⟩ :=
        (flatVal_mem_iff w (parent ++ [k]) pair1.1 pair1.2 hwfp.2.1).mp hmem1
      obtain ⟨p2, hkey2, hleaf2⟩ :=
        (flat_mem_iff ds parent pair2.1 pair2.2 hwfp.2.2).mp hmem2
      obtain ⟨j, js, rfl, hjds⟩ := leafAt_head hleaf2
      rw [hfst1] at hkey1
      rw [hfst2] at hkey2
      rw [hkey1] at hkey2
      simp only [PyKey.compound.injEq, List.append_assoc,
        List.singleton_append] at hkey2
      have : k :: p1 = j :: js := List.append_cancel_left hkey2
      exact hwfp.1 ((List.cons.injEq _ _ _ _ ▸ this).1 ▸ hjds)

theorem flatVal_keys_nodup :
    (w : PyVal) → (pk : List PyKey) → wfVal w = true →
      ((flatVal pk w).map Prod.fst).Nodup
  | .dict dv, pk, hwf => flat_keys_nodup dv pk (by simpa [wfVal] using hwf)
  | .dotdict e, pk, _ => by simp [flatVal]
  | .list xs, pk, _ => by simp [flatVal]
  | .tuple xs, pk, _ => by simp [flatVal]
  | .setv xs, pk, _ => by simp [flatVal]
  | .atom n, pk, _ => by simp [flatVal]

end

/-- C7: `dict_to_flatdict` produces exactly one entry per non-mapping leaf
of the input, keyed by the `CompoundKey` holding the full chain of original
keys from the root to that leaf; dict-valued entries are descended into
rather than kept, so an empty nested mapping contributes no entries.  The
emitted keys are pairwise distinct, so the item list is a genuine flat
mapping. -/
theorem C7_flatten_exact (m : Dict) (hwf : wfDict m = true) :
    (∀ key v, ((key, v) ∈ dict_to_flatdict [] m ↔
        ∃ p, key = PyKey.compound p ∧ leafAt m p v = true)) ∧
    ((dict_to_flatdict [] m).map Prod.fst).Nodup := by
  refine ⟨fun key v => ?_, flat_keys_nodup m [] hwf⟩
  simpa using flat_mem_iff m [] key v hwf

theorem C7_flatten_exact_witness :
    ((.compound [.str "a", .str "b"], .atom 1) ∈
        dict_to_flatdict [] [(.str "a", .dict [(.str "b", .atom 1)]),
          (.str "e", .atom 3)]) ∧
    dict_to_flatdict [] [(.str "a", .dict ([] : Dict))] = [] :=
  ⟨((C7_flatten_exact [(.str "a", .dict [(.str "b", .atom 1)]),
        (.str "e", .atom 3)] (by rfl)).1 _ _).mpr
      ⟨[.str "a", .str "b"], rfl, by simp [leafAt, leafAtV, alookup]⟩,
   rfl⟩

/-! ## The functional contract of merge_dicts (C2) -/

theorem plainD_alookup {nd : Dict} {q : PyKey} {w : PyVal}
    (hpn : plainD nd = true) (h : alookup nd q = some w) : plainV w = true := by
  induction nd with
  | nil => simp [alookup] at h
  | cons kv rest ih =>
      obtain ⟨k', v'⟩ := kv
      simp only [plainD, Bool.and_eq_true] at hpn
      by_cases hk : q = k'
      · subst hk
        rw [alookup_cons_self] at h
        exact (Option.some.inj h) ▸ hpn.1
      · rw [alookup_cons_ne v' rest hk] at h
        exact ih hpn.2 h

theorem plainD_aset {nd : Dict} {k : PyKey} {x : PyVal}
    (hpn : plainD nd = true) (hx : plainV x = true) :
    plainD (aset nd k x) = true := by
  induction nd with
  | nil => simpa [aset, plainD]
  | cons kv rest ih =>
      obtain ⟨k', v'⟩ := kv
      simp only [plainD, Bool.and_eq_true] at hpn
      by_cases hk : k = k'
      · simp [aset, hk, plainD, hx, hpn.2]
      · simp [aset, hk, plainD, hpn.1, ih hpn.2]

theorem plain_isMM {w : PyVal} (hp : plainV w = true) (hm : isMM w = true) :
    ∃ e, w = PyVal.dict e := by
  cases w with
  | dict e => exact ⟨e, rfl⟩
  | dotdict e => simp [plainV] at hp
  | list xs => simp [isMM] at hm
  | tuple xs => simp [isMM] at hm
  | setv xs => simp [isMM] at hm
  | atom n => simp [isMM] at hm

/-- The full functional specification of the loop of `merge_dicts` over
plain-dict trees: it never raises, keeps plainness, and the result looks up
as the claim describes. -/
theorem mergeGo_spec :
    (l : List (PyKey × PyVal)) → (nd : Dict) →
      plainD nd = true → plainD l = true → wfDict l = true →
      ∃ r, mergeGo false nd l = .ok r ∧ plainD r = true ∧
        (∀ q, q ∈ dkeys r ↔ q ∈ dkeys nd ∨ q ∈ dkeys l) ∧
        (∀ q, q ∉ dkeys l → alookup r q = alookup nd q) ∧
        (∀ q ea eb, alookup nd q = some (PyVal.dict ea) →
            alookup l q = some (PyVal.dict eb) →
            ∃ w, merge_dicts (.dict ea) (.dict eb) = .ok w ∧
              alookup r q = some w) ∧
        (∀ q v, alookup l q = some v →
            (∀ m1, alookup nd q = some m1 → (isMM m1 && isMM v) = false) →
            alookup r q = some v)
  | [], nd, hpn, _, _ =>
      ⟨nd, rfl, hpn, by simp, fun _ _ => rfl,
        fun q ea eb _ h => by simp [alookup] at h,
        fun q v h => by simp [alookup] at h⟩
  | (k0, v0) :: rest, nd, hpn, hpl, hwl => by
      have hplp : plainV v0 = true ∧ plainD rest = true := by
        simpa [plainD, Bool.and_eq_true] using hpl
      have hwlp : (k0 ∉ dkeys rest) ∧ wfVal v0 = true ∧ wfDict rest = true := by
        simpa [wfDict, Bool.and_eq_true, Bool.not_eq_true',
          decide_eq_false_iff_not, and_assoc] using hwl
      have hrest0 : alookup rest k0 = none := alookup_eq_none_of_not_mem hwlp.1
      have cont : ∀ newv : PyVal, plainV newv = true →
          (∀ ea eb, alookup nd k0 = some (PyVal.dict ea) → v0 = PyVal.dict eb →
              merge_dicts (.dict ea) (.dict eb) = .ok newv) →
          ((∀ m1, alookup nd k0 = some m1 → (isMM m1 && isMM v0) = false) →
              newv = v0) →
          ∃ r, mergeGo false (aset nd k0 newv) rest = .ok r ∧
            plainD r = true ∧
            (∀ q, q ∈ dkeys r ↔ q ∈ dkeys nd ∨ q ∈ dkeys ((k0, v0) :: rest)) ∧
            (∀ q, q ∉ dkeys ((k0, v0) :: rest) → alookup r q = alookup nd q) ∧
            (∀ q ea eb, alookup nd q = some (PyVal.dict ea) →
                alookup ((k0, v0) :: rest) q = some (PyVal.dict eb) →
                ∃ w, merge_dicts (.dict ea) (.dict eb) = .ok w ∧
                  alookup r q = some w) ∧
            (∀ q v, alookup ((k0, v0) :: rest) q = some v →
                (∀ m1, alookup nd q = some m1 → (isMM m1 && isMM v) = false) →
                alookup r q = some v) := by
        intro newv hplnew hmerge hkeep
        obtain ⟨r, hr, hplr, hkeys, hfresh, hboth, hover⟩ :=
          mergeGo_spec rest (aset nd k0 newv) (plainD_aset hpn hplnew)
            hplp.2 hwlp.2.2
        refine ⟨r, hr, hplr, ?_, ?_, ?_, ?_⟩
        · intro q
          rw [hkeys q, mem_dkeys_aset]
          simp only [dkeys_cons, List.mem_cons]
          tauto
        · intro q hq
          simp only [dkeys_cons, List.mem_cons, not_or] at hq
          rw [hfresh q hq.2, alookup_aset_ne nd q k0 newv hq.1]
        · intro q ea eb hnd hl
          by_cases hq : q = k0
          · subst hq
            rw [alookup_cons_self] at hl
            refine ⟨newv, hmerge ea eb hnd (Option.some.inj hl), ?_⟩
            rw [hfresh q hwlp.1, alookup_aset_self]
          · rw [alookup_cons_ne v0 rest hq] at hl
            have := hboth q ea eb ?_ hl
            · exact this
            · rw [alookup_aset_ne nd q k0 newv hq]
              exact hnd
        · intro q v hl hsafe
          by_cases hq : q = k0
          · subst hq
            rw [alookup_cons_self] at hl
            obtain rfl : v0 = v := Option.some.inj hl
            have hnv : newv = v0 := hkeep hsafe
            rw [hfresh q hwlp.1, alookup_aset_self, hnv]
          · rw [alookup_cons_ne v0 rest hq] at hl
            refine hover q v hl ?_
            intro m1 hm1
            rw [alookup_aset_ne nd q k0 newv hq] at hm1
            exact hsafe m1 hm1
      cases hl0 : alookup nd k0 with
      | none =>
          obtain ⟨r, hr, hclauses⟩ := cont v0 hplp.1
            (fun ea eb h => by rw [hl0] at h; exact absurd h (by simp))
            (fun _ => rfl)
          refine ⟨r, ?_, hclauses⟩
          simp only [mergeGo, hl0]
          exact hr
      | some m1 =>
          have hplm1 : plainV m1 = true := plainD_alookup hpn hl0
          by_cases hmm : (isMM m1 && isMM v0) = true
          · have hmm2 : isMM m1 = true ∧ isMM v0 = true := by simpa using hmm
            obtain ⟨ea, rfl⟩ := plain_isMM hplm1 hmm2.1
            obtain ⟨eb, rfl⟩ := plain_isMM hplp.1 hmm2.2
            obtain ⟨r0, hr0, hplr0, -⟩ :=
              mergeGo_spec eb ea (by simpa [plainV] using hplm1)
                (by simpa [plainV] using hplp.1)
                (by simpa [wfVal] using hwlp.2.1)
            have hmv : merge_dicts (PyVal.dict ea) (PyVal.dict eb) =
                .ok (.dict r0) := by
              simp [merge_dicts, hr0]
            obtain ⟨r, hr, hclauses⟩ := cont (.dict r0)
              (by simpa [plainV] using hplr0)
              (fun ea' eb' h1 h2 => by
                rw [hl0] at h1
                simp only [Option.some.injEq, PyVal.dict.injEq] at h1
                simp only [PyVal.dict.injEq] at h2
                rw [← h1, ← h2]
                exact hmv)
              (fun hsafe => absurd (hsafe (.dict ea) hl0) (by simp [hmm]))
            refine ⟨r, ?_, hclauses⟩
            simp only [mergeGo, hl0, hmm, if_true, hmv]
            exact hr
          · obtain ⟨r, hr, hclauses⟩ := cont v0 hplp.1
              (fun ea eb h1 h2 => by
                exfalso
                rw [hl0] at h1
                apply hmm
                rw [Option.some.inj h1, h2]
                rfl)
              (fun _ => rfl)
            refine ⟨r, ?_, hclauses⟩
            simp only [mergeGo, hl0, hmm, Bool.false_eq_true, if_false]
            exact hr

/-- C2: for all (plain, well-formed) mappings `a` and `b`, `merge_dicts(a, b)`
returns a mapping whose key set is the union of the two key sets; a key only
in `a` keeps the value `a[k]` unchanged; a key in `b` with both `a[k]` and
`b[k]` mappings gets the recursive merge `merge_dicts(a[k], b[k])`; every
other key of `b` gets `b[k]`. -/
theorem C2_merge_spec (a b : Dict) (hpa : plainD a = true)
    (hpb : plainD b = true) (hwb : wfDict b = true) :
    ∃ r, merge_dicts (.dict a) (.dict b) = .ok (.dict r) ∧
      (∀ q, q ∈ dkeys r ↔ q ∈ dkeys a ∨ q ∈ dkeys b) ∧
      (∀ q, q ∉ dkeys b → alookup r q = alookup a q) ∧
      (∀ q ea eb, alookup a q = some (PyVal.dict ea) →
          alookup b q = some (PyVal.dict eb) →
          ∃ w, merge_dicts (.dict ea) (.dict eb) = .ok w ∧
            alookup r q = some w) ∧
      (∀ q v, alookup b q = some v →
          (∀ m1, alookup a q = some m1 → (isMM m1 && isMM v) = false) →
          alookup r q = some v) := by
  obtain ⟨r, hr, -, h1, h2, h3, h4⟩ := mergeGo_spec b a hpa hpb hwb
  exact ⟨r, by simp [merge_dicts, hr], h1, h2, h3, h4⟩

theorem C2_merge_spec_witness :
    ∃ r, merge_dicts (.dict [(.str "x", .atom 1)])
        (.dict [(.str "x", .atom 2)]) = .ok (.dict r) ∧
      alookup r (.str "x") = some (.atom 2) := by
  obtain ⟨r, hok, -, -, -, h4⟩ := C2_merge_spec [(.str "x", .atom 1)]
    [(.str "x", .atom 2)] (by rfl) (by rfl) (by rfl)
  refine ⟨r, hok, h4 (.str "x") (.atom 2) (by simp [alookup]) ?_⟩
  intro m1 hm1
  rw [alookup_cons_self] at hm1
  rw [← Option.some.inj hm1]
  rfl

/-! ## to_dotdict versus the spec's conversion contract (C8) -/

theorem convSpecD_keys (l : List (PyKey × PyVal)) :
    dkeys (convSpecD l) = dkeys l := by
  induction l with
  | nil => rfl
  | cons kv rest ih =>
      obtain ⟨k, v⟩ := kv
      simp [convSpecD, ih]

theorem convOkD_okKeys {l : List (PyKey × PyVal)} (h : convOkD l = true) :
    ∀ kv ∈ convSpecD l, okKeyW kv.1 = true := by
  induction l with
  | nil => simp [convSpecD]
  | cons kv rest ih =>
      obtain ⟨k, v⟩ := kv
      simp only [convOkD, Bool.and_eq_true] at h
      intro kv' hkv'
      simp only [convSpecD, List.mem_cons] at hkv'
      rcases hkv' with rfl | hkv'
      · exact h.1.1
      · exact ih h.2 kv' hkv'

mutual

theorem td_ok : (v : PyVal) → convOkV v = true → to_dotdict v = .ok (convSpec v)
  | .dict kvs, h => by
      have hp : (dkeys kvs).Nodup ∧ convOkD kvs = true := by
        simpa [convOkV, Bool.and_eq_true, decide_eq_true_eq] using h
      have hinit : dd_init (convSpecD kvs) [] = .ok (convSpecD kvs) :=
        dd_copy_valid (convOkD_okKeys hp.2)
          (by rw [convSpecD_keys]; exact hp.1)
      simp [to_dotdict, tdEntries_ok kvs hp.2, hinit, convSpec]
  | .list xs, h => by
      simp [to_dotdict, tdList_ok xs (by simpa [convOkV] using h), convSpec]
  | .tuple xs, h => by
      simp [to_dotdict, tdList_ok xs (by simpa [convOkV] using h), convSpec]
  | .setv xs, h => by
      simp [to_dotdict, tdList_ok xs (by simpa [convOkV] using h), convSpec]
  | .dotdict e, _ => by simp [to_dotdict, convSpec]
  | .atom n, _ => by simp [to_dotdict, convSpec]

theorem tdList_ok :
    (xs : List PyVal) → convOkL xs = true → tdList xs = .ok (convSpecL xs)
  | [], _ => by simp [tdList, convSpecL]
  | x :: xs, h => by
      have hp : convOkV x = true ∧ convOkL xs = true := by
        simpa [convOkL, Bool.and_eq_true] using h
      simp [tdList, td_ok x hp.1, tdList_ok xs hp.2, convSpecL]

theorem tdEntries_ok :
    (l : List (PyKey × PyVal)) → convOkD l = true →
      tdEntries l = .ok (convSpecD l)
  | [], _ => by simp [tdEntries, convSpecD]
  | (k, v) :: rest, h => by
      have hp : okKeyW k = true ∧ convOkV v = true ∧ convOkD rest = true := by
        simpa [convOkD, Bool.and_eq_true, and_assoc] using h
      simp [tdEntries, td_ok v hp.2.1, tdEntries_ok rest hp.2.2, convSpecD]

end

/-- C8 as stated is false: `to_dotdict` raises on a mapping with a reserved
key — `to_dotdict({"items": 1})` fails inside `DotDict.__init__` with
`ValueError("no sir")` instead of returning a converted mapping. -/
theorem C8_counterexample :
    to_dotdict (.dict [(.str "items", .atom 1)]) =
      .error (.valueError "no sir") := by
  simp [to_dotdict, tdEntries, to_dotdict, dd_init, dd_update, dd_setitem,
    dd_check, mmAttrs]

/-- C8 (amended): for every input value all of whose nested mappings
(reached through mappings, lists, tuples and sets) have pairwise-distinct,
non-reserved string keys, `to_dotdict` returns: for a mapping, a `DotDict`
whose values are the recursively converted originals under the same keys;
for a list / tuple / set, the same concrete container type with each element
recursively converted; any other value unchanged.  On other inputs it can
raise (e.g. a reserved or non-string mapping key). -/
theorem C8_to_dotdict_spec (v : PyVal) (h : convOkV v = true) :
    to_dotdict v = .ok (convSpec v) := td_ok v h

theorem C8_to_dotdict_spec_witness :
    to_dotdict (.dict [(.str "a",
        .list [.dict [(.str "b", .atom 1)], .atom 2])]) =
      .ok (.dotdict [(.str "a",
        .list [.dotdict [(.str "b", .atom 1)], .atom 2])]) := by
  have h := C8_to_dotdict_spec
    (.dict [(.str "a", .list [.dict [(.str "b", .atom 1)], .atom 2])])
    (by simp [convOkV, convOkD, convOkL, okKeyW, mmAttrs, dkeys])
  simpa [convSpec, convSpecD, convSpecL] using h

/-! ## merge_dicts mutates neither input (C6) -/

theorem hlook_some_mem {h : Heap} {x : Nat} {e : HDict}
    (hl : hlook h x = some e) : x ∈ hdom h := by
  induction h with
  | nil => simp [hlook] at hl
  | cons ae rest ih =>
      obtain ⟨a, e'⟩ := ae
      by_cases hx : x = a
      · simp [hdom, hx]
      · simp only [hlook, hx, if_false] at hl
        simp [hdom, hx]
        simpa [hdom] using ih hl

theorem le_foldr_max {l : List Nat} {x : Nat} (hx : x ∈ l) :
    x ≤ l.foldr max 0 := by
  induction l with
  | nil => simp at hx
  | cons a rest ih =>
      rcases List.mem_cons.mp hx with rfl | hx'
      · simp [List.foldr]
      · simp only [List.foldr]
        exact le_trans (ih hx') (le_max_right a _)

theorem freshA_not_mem (h : Heap) : freshA h ∉ hdom h := by
  intro hmem
  have := le_foldr_max (l := hdom h) hmem
  simp only [freshA] at this
  omega

theorem hdom_cons (a : Nat) (e : HDict) (h : Heap) :
    hdom ((a, e) :: h) = a :: hdom h := rfl

theorem hdom_hset (h : Heap) (x : Nat) (e : HDict) :
    hdom (hset h x e) = hdom h := by
  induction h with
  | nil => rfl
  | cons ae rest ih =>
      obtain ⟨a, e'⟩ := ae
      by_cases hx : x = a
      · simp [hset, hx, hdom]
      · simp only [hset, hx, if_false, hdom] at ih ⊢
        simp [ih]

theorem hlook_hset_ne (h : Heap) (x y : Nat) (e : HDict) (hxy : y ≠ x) :
    hlook (hset h x e) y = hlook h y := by
  induction h with
  | nil => rfl
  | cons ae rest ih =>
      obtain ⟨a, e'⟩ := ae
      by_cases hx : x = a
      · subst hx
        simp [hset, hlook, hxy]
      · by_cases hy : y = a <;> simp [hset, hlook, hx, hy, ih]

mutual

theorem mergeH_frame :
    (fuel : Nat) → (h : Heap) → (a b : Nat) → (h' : Heap) → (r : Nat) →
      mergeH fuel h a b = some (h', r) →
      (∀ x ∈ hdom h, hlook h' x = hlook h x) ∧ r ∉ hdom h ∧
        hdom h ⊆ hdom h'
  | 0, h, a, b, h', r, hm => by simp [mergeH] at hm
  | fuel + 1, h, a, b, h', r, hm => by
      cases hla : hlook h a with
      | none => simp [mergeH, hla] at hm
      | some ea =>
          cases hlb : hlook h b with
          | none => simp [mergeH, hla, hlb] at hm
          | some eb =>
              simp only [mergeH, hla, hlb] at hm
              obtain ⟨hr, hext, hsub⟩ :=
                mergeGoH_frame fuel ((freshA h, ea) :: h) (freshA h) eb h' r hm
              have hfr := freshA_not_mem h
              refine ⟨?_, ?_, ?_⟩
              · intro x hx
                have hxne : x ≠ freshA h := fun hc => hfr (hc ▸ hx)
                rw [hext x (by rw [hdom_cons]; exact List.mem_cons_of_mem _ hx)
                  hxne]
                simp [hlook, hxne]
              · exact hr ▸ hfr
              · intro x hx
                exact hsub (by rw [hdom_cons]; exact List.mem_cons_of_mem _ hx)

theorem mergeGoH_frame :
    (fuel : Nat) → (h : Heap) → (n : Nat) → (l : HDict) → (h' : Heap) →
      (r : Nat) → mergeGoH fuel h n l = some (h', r) →
      r = n ∧ (∀ x ∈ hdom h, x ≠ n → hlook h' x = hlook h x) ∧
        hdom h ⊆ hdom h'
  | fuel, h, n, [], h', r, hm => by
      simp only [mergeGoH, Option.some.injEq, Prod.mk.injEq] at hm
      exact ⟨hm.2.symm, fun x _ _ => by rw [hm.1],
        by rw [hm.1]; exact fun _ hx => hx⟩
  | fuel, h, n, (k, v) :: rest, h', r, hm => by
      cases hln : hlook h n with
      | none => simp [mergeGoH, hln] at hm
      | some en =>
          have hdefault : ∀ en2 : HVal,
              mergeGoH fuel (hset h n (hsetA en k en2)) n rest = some (h', r) →
              r = n ∧ (∀ x ∈ hdom h, x ≠ n → hlook h' x = hlook h x) ∧
                hdom h ⊆ hdom h' := by
            intro en2 hm2
            obtain ⟨hr, hext, hsub⟩ := mergeGoH_frame fuel
              (hset h n (hsetA en k en2)) n rest h' r hm2
            refine ⟨hr, ?_, ?_⟩
            · intro x hx hxn
              rw [hext x (by rw [hdom_hset]; exact hx) hxn,
                hlook_hset_ne h n x _ hxn]
            · intro x hx
              exact hsub (by rw [hdom_hset]; exact hx)
          cases hA : hlookA en k with
          | none =>
              simp only [mergeGoH, hln, hA] at hm
              exact hdefault v hm
          | some w =>
              cases w with
              | atom m =>
                  simp only [mergeGoH, hln, hA] at hm
                  exact hdefault v hm
              | ref a1 =>
                  cases v with
                  | atom m =>
                      simp only [mergeGoH, hln, hA] at hm
                      exact hdefault (.atom m) hm
                  | ref b1 =>
                      cases hrec : mergeH fuel h a1 b1 with
                      | none => simp [mergeGoH, hln, hA, hrec] at hm
                      | some p =>
                          obtain ⟨h1, r1⟩ := p
                          obtain ⟨hext1, -, hsub1⟩ :=
                            mergeH_frame fuel h a1 b1 h1 r1 hrec
                          cases hln1 : hlook h1 n with
                          | none => simp [mergeGoH, hln, hA, hrec, hln1] at hm
                          | some en1 =>
                              simp only [mergeGoH, hln, hA, hrec, hln1] at hm
                              obtain ⟨hr, hext, hsub⟩ := mergeGoH_frame fuel
                                (hset h1 n (hsetA en1 k (.ref r1))) n rest
                                h' r hm
                              refine ⟨hr, ?_, ?_⟩
                              · intro x hx hxn
                                rw [hext x (by rw [hdom_hset]; exact hsub1 hx)
                                    hxn,
                                  hlook_hset_ne h1 n x _ hxn, hext1 x hx]
                              · intro x hx
                                refine hsub ?_
                                rw [hdom_hset]
                                exact hsub1 hx

end

mutual

theorem reify_ext :
    (g : Nat) → (h h' : Heap) →
      (∀ x ∈ hdom h, hlook h' x = hlook h x) →
      ∀ (v : HVal) (w : PyVal), reify g h v = some w → reify g h' v = some w
  | g, h, h', hext, .atom n, w, hr => by
      cases g <;> simpa [reify] using hr
  | 0, h, h', hext, .ref a, w, hr => by simp [reify] at hr
  | g + 1, h, h', hext, .ref a, w, hr => by
      cases hla : hlook h a with
      | none => simp [reify, hla] at hr
      | some e =>
          simp only [reify, hla] at hr
          cases hre : reifyE g h e with
          | none => rw [hre] at hr; simp at hr
          | some l =>
              rw [hre] at hr
              have hla' : hlook h' a = some e :=
                (hext a (hlook_some_mem hla)).trans hla
              simp only [reify, hla', reifyE_ext g h h' hext e l hre]
              exact hr

theorem reifyE_ext :
    (g : Nat) → (h h' : Heap) →
      (∀ x ∈ hdom h, hlook h' x = hlook h x) →
      ∀ (e : HDict) (l : Dict), reifyE g h e = some l → reifyE g h' e = some l
  | g, h, h', hext, [], l, hr => by simpa [reifyE] using hr
  | g, h, h', hext, (k, v) :: rest, l, hr => by
      simp only [reifyE] at hr ⊢
      cases hrv : reify g h v with
      | none => rw [hrv] at hr; simp at hr
      | some w =>
          rw [hrv] at hr
          cases hrr : reifyE g h rest with
          | none => rw [hrr] at hr; simp at hr
          | some l2 =>
              rw [hrr] at hr
              rw [reify_ext g h h' hext v w hrv,
                reifyE_ext g h h' hext rest l2 hrr]
              exact hr

end

/-- C6: `merge_dicts` never mutates either input.  In the store model the
call only allocates fresh cells and writes into them: every address
allocated before the call maps to the same cell afterwards, and therefore
every value readable before the call reads back structurally unchanged. -/
theorem C6_merge_no_mutation (fuel : Nat) (h : Heap) (a b : Nat)
    (h' : Heap) (r : Nat) (hm : mergeH fuel h a b = some (h', r)) :
    (∀ x ∈ hdom h, hlook h' x = hlook h x) ∧
    (∀ (g : Nat) (v : HVal) (w : PyVal),
        reify g h v = some w → reify g h' v = some w) := by
  obtain ⟨hext, -, -⟩ := mergeH_frame fuel h a b h' r hm
  exact ⟨hext, fun g v w => reify_ext g h h' hext v w⟩

theorem C6_merge_no_mutation_witness :
    ∃ h', mergeH 2 [(0, [(.str "x", .atom 1)]), (1, [(.str "x", .atom 2)])]
        0 1 = some (h', 2) ∧
      hlook h' 0 = some [(.str "x", .atom 1)] ∧
      hlook h' 1 = some [(.str "x", .atom 2)] ∧
      hlook h' 2 = some [(.str "x", .atom 2)] := by
  have hm : mergeH 2 [(0, [(.str "x", .atom 1)]), (1, [(.str "x", .atom 2)])]
      0 1 = some ((2, [(.str "x", .atom 2)]) ::
        [(0, [(.str "x", .atom 1)]), (1, [(.str "x", .atom 2)])], 2) := by
    simp [mergeH, mergeGoH, hlook, hset, hsetA, hlookA, freshA, hdom]
  have hfr := (C6_merge_no_mutation 2 _ 0 1 _ 2 hm).1
  refine ⟨_, hm, ?_, ?_, by simp [hlook]⟩
  · rw [hfr 0 (by simp [hdom])]
    simp [hlook]
  · rw [hfr 1 (by simp [hdom])]
    simp [hlook]

end PrefectCollections
